import Mathlib

/-!
# Form validation, submission and toast pipeline of `enhanced-features.js`

A shallow embedding of the `EnhancedWebsite` class: the two validation
patterns, `validateField`, `validateForm`, `showError`, `clearError`,
`handleFormSubmission`, `showToast` and the submit handler installed by
`setupFormValidation`, together with the timers they schedule, and of
`Utils.throttle`.

Representation choices.

* A JavaScript string is a Lean `String`; the patterns only distinguish
  whitespace, `@`, `.`, ASCII digits and `- + ( )`, all of them single UTF-16
  code units, so matching by code point and by code unit agree.
* A form is represented twice. `Dom` is the tree of its elements, with inputs
  and elements of class `error-message` at any depth: `input.parentElement` is
  the element whose children hold the input, and `querySelector` ranges over
  everything below that element, also over what lies below the parent elements
  of other inputs. `Parent` is the list view of a form in which no parent
  element of an input holds the parent element of another input: the
  document-order list of the inputs of each parent and of the texts of the
  elements of class `error-message` below it. On such a form the two agree
  (`Dom.validateForm_eq_upTo`, `Dom.parents_upTo`); the page model of the
  submission lifecycle uses the list view.
* An element of class `error-message` is neither an input nor holds one, and
  holds no further element of that class.
* The page holds one form; the listeners of different forms share nothing but
  the toast container.
* Closures handed to `setTimeout` are represented by the constructors of
  `Callback`; the timer queue carries the due time of each pending callback,
  on a clock in milliseconds. Timers fire in the order of their due times, the
  one registered first among equals, and never before they are due.
* The function handed to `Utils.throttle` acts on a world of its own and either
  returns or throws; it does not call the wrapper it is wrapped in.
-/

namespace EnhancedWebsite

/-! ## Regular expressions -/

/-- Regular expressions over characters; a character class is a predicate. -/
inductive Regex where
  | empty : Regex
  | eps : Regex
  | cls (p : Char → Bool) : Regex
  | seq (r s : Regex) : Regex
  | alt (r s : Regex) : Regex
  | star (r : Regex) : Regex

namespace Regex

/-- The pattern `r+`. -/
def plus (r : Regex) : Regex := seq r (star r)

/-- Whether the expression accepts the empty word. -/
def nullable : Regex → Bool
  | empty => false
  | eps => true
  | cls _ => false
  | seq r s => nullable r && nullable s
  | alt r s => nullable r || nullable s
  | star _ => true

/-- Brzozowski derivative with respect to one character. -/
def deriv : Regex → Char → Regex
  | empty, _ => empty
  | eps, _ => empty
  | cls p, c => if p c then eps else empty
  | seq r s, c => if nullable r then alt (seq (deriv r c) s) (deriv s c) else seq (deriv r c) s
  | alt r s, c => alt (deriv r c) (deriv s c)
  | star r, c => seq (deriv r c) (star r)

/-- Anchored match `^r$` of a whole word, as `RegExp.prototype.test` does for a
pattern written between `^` and `$`. -/
def test (r : Regex) : List Char → Bool
  | [] => nullable r
  | c :: cs => test (deriv r c) cs

/-- Words denoted by an expression. -/
def Lang : Regex → List Char → Prop
  | empty, _ => False
  | eps, w => w = []
  | cls p, w => ∃ c, w = [c] ∧ p c = true
  | seq r s, w => ∃ u v, w = u ++ v ∧ Lang r u ∧ Lang s v
  | alt r s, w => Lang r w ∨ Lang s w
  | star r, w => ∃ parts : List (List Char), w = parts.flatten ∧ ∀ u ∈ parts, u ≠ [] ∧ Lang r u

end Regex

/-! ## Character classes of the source patterns -/

/-- The characters matched by `\s` and removed by `String.prototype.trim`:
ECMAScript WhiteSpace and LineTerminator. -/
def isSpace (c : Char) : Bool :=
  let n := c.toNat
  n == 0x09 || n == 0x0A || n == 0x0B || n == 0x0C || n == 0x0D || n == 0x20 ||
  n == 0xA0 || n == 0x1680 || (0x2000 ≤ n && n ≤ 0x200A) || n == 0x2028 ||
  n == 0x2029 || n == 0x202F || n == 0x205F || n == 0x3000 || n == 0xFEFF

/-- The characters matched by `\d`. -/
def isDigit (c : Char) : Bool := 0x30 ≤ c.toNat && c.toNat ≤ 0x39

/-- The class `[^\s@]`. -/
def notSpaceAt (c : Char) : Bool := !(isSpace c || c == '@')

/-- The class `[\d\s\-\+\(\)]`. -/
def phoneChar (c : Char) : Bool :=
  isDigit c || isSpace c || c == '-' || c == '+' || c == '(' || c == ')'

/-- The pattern `^[^\s@]+@[^\s@]+\.[^\s@]+$`. -/
def emailPattern : Regex :=
  .seq (.plus (.cls notSpaceAt))
    (.seq (.cls (· == '@'))
      (.seq (.plus (.cls notSpaceAt))
        (.seq (.cls (· == '.')) (.plus (.cls notSpaceAt)))))

/-- The pattern `^[\d\s\-\+\(\)]+$`. -/
def phonePattern : Regex := .plus (.cls phoneChar)

/-- Embeds `isValidEmail(email)`. -/
def isValidEmail (email : List Char) : Bool := emailPattern.test email

/-- Embeds `isValidPhone(phone)`. -/
def isValidPhone (phone : List Char) : Bool := phonePattern.test phone

/-- Embeds `String.prototype.trim`: whitespace is removed from both ends. -/
def jsTrim (s : String) : List Char := (s.data.dropWhile isSpace).rdropWhile isSpace

/-! ## Fields and the error display -/

/-- An `input` or `textarea` element of a form: its live `value`, its `type`
property, whether it has the `required` attribute, the default value the
browser restores on `form.reset()`, and whether its class list holds `error`. -/
structure Field where
  value : String
  type : String
  required : Bool
  defaultValue : String
  errorClass : Bool
deriving DecidableEq, Repr

/-- An input together with what `input.parentElement.querySelector('.error-message')`
ranges over: the texts of the elements of class `error-message` below the
input's parent element, in document order. -/
structure InputCtx where
  input : Field
  parentErrors : List String
deriving DecidableEq, Repr

/-- Embeds `clearError(input)`: the first element of class `error-message`
below the parent is removed when there is one, and the class `error` is taken
off the input. -/
def clearError (c : InputCtx) : InputCtx :=
  { input := { c.input with errorClass := false }
    parentErrors := c.parentErrors.tail }

/-- Embeds `showError(input, message)`: `clearError`, then a new element of
class `error-message` with the message is appended to the parent and the class
`error` is put on the input. -/
def showError (c : InputCtx) (message : String) : InputCtx :=
  let c1 := clearError c
  { input := { c1.input with errorClass := true }
    parentErrors := c1.parentErrors ++ [message] }

/-- The pair `(isValid, errorMessage)` computed by the rule cascade of
`validateField`. -/
def verdict (input : Field) : Bool × String :=
  let value := jsTrim input.value
  let type := input.type
  if input.required && value.isEmpty then
    (false, "This field is required")
  else if type == "email" && !value.isEmpty && !isValidEmail value then
    (false, "Please enter a valid email address")
  else if type == "tel" && !value.isEmpty && !isValidPhone value then
    (false, "Please enter a valid phone number")
  else
    (true, "")

/-- Embeds `validateField(input)`: the returned boolean and the display left
behind. -/
def validateField (c : InputCtx) : Bool × InputCtx :=
  let v := verdict c.input
  if !v.1 then (v.1, showError c v.2) else (v.1, clearError c)

/-- A parent element of form fields: the fields in it and the texts of the
elements of class `error-message` below it, both in document order. A list of
parents stands for a form in which no parent element of an input holds the
parent element of another input, so that the error elements below one parent
lie below no other; `Dom` is the form without that restriction. -/
structure Parent where
  fields : List Field
  errors : List String
deriving DecidableEq, Repr

/-- Address of a field: index of its parent element, index among the fields of
that parent. -/
abbrev Addr := Nat × Nat

/-- Runs a method on the `i`-th input of a parent element and writes the
display it leaves back into the parent; when there is no such input the parent
stays as it is and the default result is returned. -/
def onField {α : Type} (op : InputCtx → α × InputCtx) (dflt : α) (p : Parent)
    (i : Nat) : α × Parent :=
  match p.fields[i]? with
  | none => (dflt, p)
  | some f =>
    let r := op ⟨f, p.errors⟩
    (r.1, ⟨p.fields.set i r.2.input, r.2.parentErrors⟩)

/-- Runs a method on the input at an address of the page. -/
def atInput {α : Type} (op : InputCtx → α × InputCtx) (dflt : α) (ps : List Parent)
    (a : Addr) : α × List Parent :=
  match ps[a.1]? with
  | none => (dflt, ps)
  | some p =>
    let r := onField op dflt p a.2
    (r.1, ps.set a.1 r.2)

/-- The method `validateField` called on the input at an address of the page. -/
def validateFieldAt (ps : List Parent) (a : Addr) : Bool × List Parent :=
  atInput validateField true ps a

/-- The method `clearError` called on the input at an address of the page. -/
def clearErrorAt (ps : List Parent) (a : Addr) : List Parent :=
  (atInput (fun c => ((), clearError c)) () ps a).2

/-- Addresses of the fields of the parents, in document order, the first
parent having index `k`. -/
def inputsFrom (k : Nat) : List Parent → List Addr
  | [] => []
  | p :: ps => (List.range' 0 p.fields.length).map (fun i => (k, i)) ++ inputsFrom (k + 1) ps

/-- Embeds `form.querySelectorAll('input, textarea')`. -/
def inputs (ps : List Parent) : List Addr := inputsFrom 0 ps

/-- The callback of `inputs.forEach` in `validateForm`, acting on the flag
`isValid` and the page. -/
def formStep (acc : Bool × List Parent) (a : Addr) : Bool × List Parent :=
  let r := validateFieldAt acc.2 a
  (if !r.1 then false else acc.1, r.2)

/-- Embeds `validateForm(form)`: `isValid` starts as `true`, the callback runs
on every input in document order, and `isValid` is returned. -/
def validateForm (ps : List Parent) : Bool × List Parent :=
  (inputs ps).foldl formStep (true, ps)

/-! ## Page state, timers and event handlers -/

/-- The element `form.querySelector('button[type="submit"]')`. -/
structure Button where
  textContent : String
  disabled : Bool
deriving DecidableEq, Repr

/-- A toast element of the toast container; `id` stands for the identity of
the element, `shown` for the class `show`. -/
structure Toast where
  id : Nat
  className : String
  textContent : String
  shown : Bool
deriving DecidableEq, Repr

/-- The closures handed to `setTimeout`, with the variables they capture. -/
inductive Callback where
  | toastShow (id : Nat)
  | toastHide (id : Nat)
  | toastRemove (id : Nat)
  | submitDone (originalText : String)
deriving DecidableEq, Repr

/-- A pending timer: the time it is due and its callback. -/
structure Timer where
  due : Nat
  callback : Callback
deriving DecidableEq, Repr

/-- The page: clock, pending timers in the order of their registration, the
children of the toast container, the identity of the next element created, and
one form with its parents of fields and its submit button. -/
structure Page where
  now : Nat
  timers : List Timer
  toastContainer : List Toast
  nextId : Nat
  parents : List Parent
  submitBtn : Option Button
deriving DecidableEq, Repr

/-- Embeds `setTimeout(callback, delay)`. -/
def setTimeout (s : Page) (callback : Callback) (delay : Nat) : Page :=
  { s with timers := s.timers ++ [⟨s.now + delay, callback⟩] }

/-- Embeds `showToast(message, type = 'info', duration = 3000)`; an argument
left out is `none`. -/
def showToast (s : Page) (message : String) (type : Option String)
    (duration : Option Nat) : Page :=
  let toast : Toast := ⟨s.nextId, "toast toast-" ++ type.getD "info", message, false⟩
  let s1 := { s with toastContainer := s.toastContainer ++ [toast], nextId := s.nextId + 1 }
  let s2 := setTimeout s1 (.toastShow toast.id) 100
  setTimeout s2 (.toastHide toast.id) (duration.getD 3000)

/-- Embeds `form.reset()` on the fields: each value goes back to its default. -/
def resetForm (ps : List Parent) : List Parent :=
  ps.map fun p => { p with fields := p.fields.map fun f => { f with value := f.defaultValue } }

/-- Embeds `handleFormSubmission(form)`; without a submit button the read of
`submitBtn.textContent` throws and nothing is changed. -/
def handleFormSubmission (s : Page) : Page :=
  match s.submitBtn with
  | none => s
  | some submitBtn =>
    let originalText := submitBtn.textContent
    let s1 := { s with submitBtn := some ⟨"Sending...", true⟩ }
    setTimeout s1 (.submitDone originalText) 2000

/-- The listener of the `submit` event installed by `setupFormValidation`. -/
def onSubmit (s : Page) : Page :=
  let r := validateForm s.parents
  let s1 := { s with parents := r.2 }
  if r.1 then handleFormSubmission s1 else s1

/-- Runs a timer callback. -/
def fire (s : Page) : Callback → Page
  | .toastShow id =>
    { s with toastContainer :=
        s.toastContainer.map fun t => if t.id = id then { t with shown := true } else t }
  | .toastHide id =>
    let s1 := { s with toastContainer :=
        s.toastContainer.map fun t => if t.id = id then { t with shown := false } else t }
    setTimeout s1 (.toastRemove id) 300
  | .toastRemove id =>
    { s with toastContainer := s.toastContainer.filter fun t => t.id ≠ id }
  | .submitDone originalText =>
    let s1 := showToast s "Message sent successfully!" (some "success") none
    let s2 := { s1 with parents := resetForm s1.parents }
    { s2 with submitBtn := s2.submitBtn.map fun _ => ⟨originalText, false⟩ }

/-- The pending timer that fires next: least due time, the one registered
first among equals. -/
def earliest : List Timer → Option Timer
  | [] => none
  | t :: ts =>
    match earliest ts with
    | none => some t
    | some u => if t.due ≤ u.due then some t else some u

/-- One turn of the timer loop: the next timer is taken off the queue, the
clock moves to its due time when that lies ahead, and its callback runs. -/
def tick (s : Page) : Page :=
  match earliest s.timers with
  | none => s
  | some t => fire { s with now := max s.now t.due, timers := s.timers.erase t } t.callback

/-- What can happen to the page. `pressSubmit` is the user activating the
submit button, which the browser turns into a `submit` event only while the
button is enabled; `submit` is a `submit` event reaching the listener by any
other route (another submit control of the form, `requestSubmit()`); `edit` is
the user changing a value (the `input` listener runs), `blur` the input losing
focus, `notify` another listener calling `showToast` (the theme toggle does),
`timer` the next timer firing and `wait` time passing. -/
inductive Event where
  | pressSubmit
  | submit
  | edit (a : Addr) (value : String)
  | blur (a : Addr)
  | notify (message : String) (type : Option String) (duration : Option Nat)
  | timer
  | wait (ms : Nat)
deriving DecidableEq, Repr

/-- The value of the input at an address is replaced. -/
def setValue (ps : List Parent) (a : Addr) (value : String) : List Parent :=
  (atInput (fun c => ((), { c with input := { c.input with value := value } })) () ps a).2

/-- The reaction of the page to one event. -/
def step (s : Page) : Event → Page
  | .pressSubmit =>
    match s.submitBtn with
    | none => s
    | some b => if b.disabled then s else onSubmit s
  | .submit => onSubmit s
  | .edit a value => { s with parents := clearErrorAt (setValue s.parents a value) a }
  | .blur a => { s with parents := (validateFieldAt s.parents a).2 }
  | .notify message type duration => showToast s message type duration
  | .timer => tick s
  | .wait ms => { s with now := s.now + ms }

/-- The page after a sequence of events. -/
def run (s : Page) (es : List Event) : Page := es.foldl step s

/-- Whether a pending timer is the completion of a submission lifecycle. -/
def isSubmitDone (t : Timer) : Bool :=
  match t.callback with
  | .submitDone _ => true
  | _ => false

/-- Number of submission lifecycles in progress: pending `submitDone` timers. -/
def pendingSubmissions (s : Page) : Nat := (s.timers.filter isSubmitDone).length

/-- The values of the inputs of the page, parent by parent. -/
def fieldValues (ps : List Parent) : List (List String) :=
  ps.map fun p => p.fields.map fun f => f.value

/-- A page with a form of one required text input holding "hello", no default
value, and a submit button labelled "Send". -/
def contactPage : Page :=
  { now := 0, timers := [], toastContainer := [], nextId := 0
    parents := [⟨[⟨"hello", "text", true, "", false⟩], []⟩]
    submitBtn := some ⟨"Send", false⟩ }

/-- The same page with the input declared with the default value "General
enquiry" and left at it. -/
def prefilledPage : Page :=
  { contactPage with
    parents := [⟨[⟨"General enquiry", "text", true, "General enquiry", false⟩], []⟩] }

/-! ## Criteria in the words of the specification -/

/-- The email criterion as the specification words it: exactly one `@`, at
least one `.` somewhere after it, no whitespace character. -/
def specEmailCriterion (v : List Char) : Bool :=
  v.count '@' == 1 && (v.dropWhile (· != '@')).contains '.' && v.all (fun c => !isSpace c)

/-- The phone characters as the specification words them: decimal digits, the
space character, `-`, `+`, `(` and `)`. -/
def specPhoneChar (c : Char) : Bool :=
  isDigit c || c == ' ' || c == '-' || c == '+' || c == '(' || c == ')'

/-! ## Closed forms used in the proofs -/

/-- The input as `validateField` leaves it: the class `error` is on it exactly
when the verdict is invalid. -/
def marked (f : Field) : Field := { f with errorClass := !(verdict f).1 }

/-- The error elements of the parent after `validateField` ran on one of its
inputs: the first one is gone, and on an invalid verdict the message is
appended. -/
def errorsAfter (errs : List String) (f : Field) : List String :=
  if (verdict f).1 then errs.tail else errs.tail ++ [(verdict f).2]

/-- The parent element after `validateField` ran on each of its inputs in
document order. -/
def validatedParent (p : Parent) : Parent :=
  ⟨p.fields.map marked, p.fields.foldl errorsAfter p.errors⟩

/-- The input at an address of the page. -/
def fieldAt (ps : List Parent) (a : Addr) : Option Field :=
  (ps[a.1]?).bind fun p => p.fields[a.2]?

/-- A page with nothing on it: no form field, no toast, no pending timer. -/
def blankPage : Page :=
  { now := 0, timers := [], toastContainer := [], nextId := 0, parents := [], submitBtn := none }

/-- Number of timer turns a pending callback accounts for: itself and the
callbacks it schedules in turn. -/
def callbackWeight : Callback → Nat
  | .toastShow _ => 1
  | .toastHide _ => 2
  | .toastRemove _ => 1
  | .submitDone _ => 4

/-- Number of timer turns after which the queue has run dry. -/
def queueWeight (l : List Timer) : Nat := (l.map fun t => callbackWeight t.callback).sum

/-- The state of the submit button and of the pending completions when the
button started out enabled with the given label: either no completion is
pending and the button is enabled with that label, or exactly one completion
is pending, it has captured that label, and the button is disabled and reads
"Sending...". -/
def Lifecycle (label : String) (s : Page) : Prop :=
  (s.timers.filter isSubmitDone = [] ∧ s.submitBtn = some ⟨label, false⟩) ∨
  (∃ due, s.timers.filter isSubmitDone = [⟨due, .submitDone label⟩] ∧
    s.submitBtn = some ⟨"Sending...", true⟩)

/-! ## Stages of a toast -/

/-- Whether a pending timer belongs to the toast `id`. -/
def isOfToast (id : Nat) (t : Timer) : Bool :=
  match t.callback with
  | .toastShow i => i == id
  | .toastHide i => i == id
  | .toastRemove i => i == id
  | .submitDone _ => false

/-- The pending timers of the toast `id`, in the order of their registration. -/
def toastTimers (id : Nat) (s : Page) : List Timer := s.timers.filter (isOfToast id)

/-- The elements of the toast container with identity `id`. -/
def toastElems (id : Nat) (s : Page) : List Toast := s.toastContainer.filter fun u => u.id == id

/-- The stages of the life of a toast created at time `t0` with duration `d`:
stage 0, in the container, not shown, appearance and disappearance pending;
stage 1, shown, not before `t0 + 100`, disappearance pending;
stage 2, no longer shown, not before `t0 + d`, removal pending and due 300 ms
after the disappearance ran; stage 3, removed, not before `t0 + d + 300`. -/
def ToastStage (t0 d : Nat) (toast : Toast) (n : Nat) (s : Page) : Prop :=
  toast.id < s.nextId ∧
  match n with
  | 0 => toastElems toast.id s = [{ toast with shown := false }] ∧
      toastTimers toast.id s = [⟨t0 + 100, .toastShow toast.id⟩, ⟨t0 + d, .toastHide toast.id⟩]
  | 1 => toastElems toast.id s = [{ toast with shown := true }] ∧
      toastTimers toast.id s = [⟨t0 + d, .toastHide toast.id⟩] ∧ t0 + 100 ≤ s.now
  | 2 => toastElems toast.id s = [{ toast with shown := false }] ∧
      (∃ due, t0 + d + 300 ≤ due ∧ toastTimers toast.id s = [⟨due, .toastRemove toast.id⟩]) ∧
      t0 + d ≤ s.now
  | _ => toastElems toast.id s = [] ∧ toastTimers toast.id s = [] ∧ t0 + d + 300 ≤ s.now

/-- A page whose toast container holds one toast on display, with its
disappearance pending. -/
def pageWithToast : Page :=
  { blankPage with
    now := 500
    timers := [⟨3000, .toastHide 0⟩]
    toastContainer := [⟨0, "toast toast-info", "Switched to dark mode", true⟩]
    nextId := 1 }

/-! ## `Utils.throttle` -/

namespace Utils

/-- What a call of `func` does: the world it leaves behind and whether it
returned normally (`false`: it threw). -/
structure Outcome (σ : Type) where
  world : σ
  returned : Bool

/-- The wrapper returned by `throttle(func, limit)` in its surroundings: the
clock, the variable `inThrottle` of the closure (unset counts as `false`), the
due times of the pending `() => inThrottle = false` timers, the world `func`
acts on, and the record of the invocations of `func` so far, each with its
time and arguments. -/
structure Throttled (σ α : Type) where
  now : Nat
  inThrottle : Bool
  resets : List Nat
  world : σ
  invoked : List (Nat × α)

/-- The wrapper right after `throttle(func, limit)` returned it. -/
def start {σ α : Type} (now : Nat) (world : σ) : Throttled σ α :=
  { now := now, inThrottle := false, resets := [], world := world, invoked := [] }

/-- Embeds one call of the function returned by `throttle(func, limit)`: when
`inThrottle` is not set, `func` is applied to the arguments of the call, then
`inThrottle` is set and its reset is scheduled `limit` ms ahead; when `func`
throws, the exception leaves the wrapper before `inThrottle` is set. -/
def throttle {σ α : Type} (func : α → σ → Outcome σ) (limit : Nat) (s : Throttled σ α)
    (args : α) : Throttled σ α :=
  if !s.inThrottle then
    let r := func args s.world
    let s1 := { s with world := r.world, invoked := s.invoked ++ [(s.now, args)] }
    if r.returned then
      { s1 with inThrottle := true, resets := s1.resets ++ [s1.now + limit] }
    else s1
  else s

/-- The least due time among the pending resets. -/
def leastDue : List Nat → Option Nat
  | [] => none
  | d :: ds =>
    match leastDue ds with
    | none => some d
    | some e => some (min d e)

/-- The next pending reset fires: the clock moves to its due time when that
lies ahead, and `inThrottle = false` runs. -/
def fireReset {σ α : Type} (s : Throttled σ α) : Throttled σ α :=
  match leastDue s.resets with
  | none => s
  | some due =>
    { s with now := max s.now due, resets := s.resets.erase due, inThrottle := false }

/-- What can happen to the wrapper: a call with arguments, the next timer
firing, time passing. -/
inductive Happening (α : Type) where
  | call (args : α)
  | timer
  | wait (ms : Nat)

/-- The reaction of the wrapper to one happening. -/
def react {σ α : Type} (func : α → σ → Outcome σ) (limit : Nat) (s : Throttled σ α) :
    Happening α → Throttled σ α
  | .call args => throttle func limit s args
  | .timer => fireReset s
  | .wait ms => { s with now := s.now + ms }

/-- The wrapper after a sequence of happenings. -/
def play {σ α : Type} (func : α → σ → Outcome σ) (limit : Nat) (s : Throttled σ α)
    (hs : List (Happening α)) : Throttled σ α :=
  hs.foldl (react func limit) s

/-- The state the wrapper keeps when `func` returns normally: invocations are
at least `limit` ms apart and the world is that of the recorded invocations;
either `inThrottle` is set and one reset is pending, due `limit` ms after the
latest invocation, or `inThrottle` is not set, no reset is pending and `limit`
ms have passed since the latest invocation. -/
def Settled {σ α : Type} (func : α → σ → Outcome σ) (limit : Nat) (w0 : σ)
    (s : Throttled σ α) : Prop :=
  List.Chain' (fun x y => x.1 + limit ≤ y.1) s.invoked ∧
  s.world = s.invoked.foldl (fun w x => (func x.2 w).world) w0 ∧
  ((s.inThrottle = true ∧
      ∃ t a, s.invoked.getLast? = some (t, a) ∧ s.resets = [t + limit] ∧ t ≤ s.now) ∨
    (s.inThrottle = false ∧ s.resets = [] ∧
      ∀ t a, s.invoked.getLast? = some (t, a) → t + limit ≤ s.now))

/-- A `func` that appends its argument to a list and returns. -/
def record (args : String) (w : List String) : Outcome (List String) := ⟨w ++ [args], true⟩

/-- A `func` that appends its argument to a list and then throws. -/
def recordAndThrow (args : String) (w : List String) : Outcome (List String) :=
  ⟨w ++ [args], false⟩

end Utils

/-! ## The form as a tree of elements -/

/-- A list of sibling elements in document order, each with the elements below
it: an `input` or `textarea` (`field`), an element of class `error-message`
(`error`, which holds no field and no further such element), or any other
element with its children (`elem`). The form is the list of its children. -/
inductive Dom where
  | nil : Dom
  | field (input : Field) (next : Dom) : Dom
  | error (text : String) (next : Dom) : Dom
  | elem (kids : Dom) (next : Dom) : Dom
deriving DecidableEq, Repr

namespace Dom

/-- The siblings of one list followed by those of another; `appendChild` puts
a new element after the last child. -/
def append : Dom → Dom → Dom
  | nil, e => e
  | field f next, e => field f (append next e)
  | error t next, e => error t (append next e)
  | elem kids next, e => elem kids (append next e)

/-- Embeds `querySelector('.error-message')` followed by `remove()` on the
children of an element: the first element of class `error-message` below it
in document order is taken out; `none` when there is none. -/
def removeFirstError : Dom → Option Dom
  | nil => none
  | field f next => (removeFirstError next).map (field f)
  | error _ next => some next
  | elem kids next =>
    match removeFirstError kids with
    | some kids1 => some (elem kids1 next)
    | none => (removeFirstError next).map (elem kids)

/-- The `j`-th input among the children themselves. -/
def directField : Nat → Dom → Option Field
  | _, nil => none
  | 0, field f _ => some f
  | j + 1, field _ next => directField j next
  | j, error _ next => directField j next
  | j, elem _ next => directField j next

/-- The `j`-th input among the children themselves is changed. -/
def mapDirect (g : Field → Field) : Nat → Dom → Dom
  | _, nil => nil
  | 0, field f next => field (g f) next
  | j + 1, field f next => field f (mapDirect g j next)
  | j, error t next => error t (mapDirect g j next)
  | j, elem kids next => elem kids (mapDirect g j next)

/-- Embeds `clearError(input)` for the `j`-th input among the children `ks` of
`input.parentElement`. -/
def clearError (ks : Dom) (j : Nat) : Dom :=
  mapDirect (fun f => { f with errorClass := false }) j ((removeFirstError ks).getD ks)

/-- Embeds `showError(input, message)` for the `j`-th input among the children
`ks` of `input.parentElement`. -/
def showError (ks : Dom) (j : Nat) (message : String) : Dom :=
  let ks1 := clearError ks j
  mapDirect (fun f => { f with errorClass := true }) j (append ks1 (error message nil))

/-- Embeds `validateField(input)` for the `j`-th input among the children `ks`
of `input.parentElement`. -/
def validateField (ks : Dom) (j : Nat) : Bool × Dom :=
  match directField j ks with
  | none => (true, ks)
  | some input =>
    let v := verdict input
    if !v.1 then (v.1, showError ks j v.2) else (v.1, clearError ks j)

/-- Number of inputs in the list and below it. -/
def count : Dom → Nat
  | nil => 0
  | field _ next => count next + 1
  | error _ next => count next
  | elem kids next => count kids + count next

/-- Outcome of looking for the `k`-th input in document order in a list of
siblings: there are too few inputs (`k` less their number is left over); it is
the `j`-th input among the siblings themselves, so that the element holding
the list is its parent; or it lies deeper, and the method has run on its
parent, giving a result and the changed list. -/
inductive Found (α : Type) where
  | missing (k : Nat)
  | here (j : Nat)
  | done (r : α) (d : Dom)

/-- Puts a sibling back in front of the list a search went through. -/
def Found.under {α : Type} (c : Dom → Dom) : Found α → Found α
  | .missing k => .missing k
  | .here j => .here j
  | .done r d => .done r (c d)

/-- Looks for the `k`-th input in document order, `j` inputs among the
siblings having been passed, and runs the method `m` on the children of its
parent element when that parent lies in the list. -/
def find {α : Type} (m : Dom → Nat → α × Dom) : Nat → Nat → Dom → Found α
  | k, _, nil => .missing k
  | 0, j, field _ _ => .here j
  | k + 1, j, field f next => (find m k (j + 1) next).under (field f)
  | k, j, error t next => (find m k j next).under (error t)
  | k, j, elem kids next =>
    match find m k 0 kids with
    | .missing k1 => (find m k1 j next).under (elem kids)
    | .here j1 => .done (m kids j1).1 (elem (m kids j1).2 next)
    | .done r kids1 => .done r (elem kids1 next)

/-- Runs a method on the `k`-th input of the form in document order, with the
children of `input.parentElement`; the form itself is the parent of the inputs
among its children. -/
def atInput {α : Type} (m : Dom → Nat → α × Dom) (dflt : α) (form : Dom) (k : Nat) :
    α × Dom :=
  match find m k 0 form with
  | .missing _ => (dflt, form)
  | .here j => m form j
  | .done r d => (r, d)

/-- The callback of `inputs.forEach` in `validateForm`, on the tree. -/
def formStep (acc : Bool × Dom) (k : Nat) : Bool × Dom :=
  let r := atInput validateField true acc.2 k
  (if !r.1 then false else acc.1, r.2)

/-- Embeds `validateForm(form)` on the tree: the inputs found by
`form.querySelectorAll('input, textarea')` are visited in document order. -/
def validateForm (form : Dom) : Bool × Dom :=
  (List.range' 0 (count form)).foldl formStep (true, form)

/-- The inputs of the list and below it, in document order. -/
def fields : Dom → List Field
  | nil => []
  | field f next => f :: fields next
  | error _ next => fields next
  | elem kids next => fields kids ++ fields next

/-- The texts of the elements of class `error-message` in the list and below
it, in document order. -/
def errorTexts : Dom → List String
  | nil => []
  | field _ next => errorTexts next
  | error t next => t :: errorTexts next
  | elem kids next => errorTexts kids ++ errorTexts next

/-- The inputs among the siblings themselves. -/
def directFields : Dom → List Field
  | nil => []
  | field f next => f :: directFields next
  | error _ next => directFields next
  | elem _ next => directFields next

end Dom

namespace Dom

/-- Whether an input is among the siblings themselves, so that the element
holding the list is the parent element of an input. -/
def hasDirect (d : Dom) : Bool := !(directFields d).isEmpty

/-- Whether no input lies below an element among the siblings. -/
def lone : Dom → Bool
  | nil => true
  | field _ next => lone next
  | error _ next => lone next
  | elem kids next => count kids == 0 && lone next

/-- Whether, below the elements among the siblings, no parent element of an
input holds the parent element of another input. -/
def apartIn : Dom → Bool
  | nil => true
  | field _ next => apartIn next
  | error _ next => apartIn next
  | elem kids next => (if hasDirect kids then lone kids else apartIn kids) && apartIn next

/-- Whether no parent element of an input of the form holds the parent element
of another input: parents of inputs may be shared, they are not nested. -/
def apart (form : Dom) : Bool := if hasDirect form then lone form else apartIn form

/-- The parent elements of inputs below the elements among the siblings, in
document order, each with its inputs and the texts of the error elements
below it. -/
def parentsIn : Dom → List Parent
  | nil => []
  | field _ next => parentsIn next
  | error _ next => parentsIn next
  | elem kids next =>
    (if hasDirect kids then [⟨directFields kids, errorTexts kids⟩] else parentsIn kids) ++
      parentsIn next

/-- The parent elements of the inputs of the form, in document order, each
with its inputs and the texts of the error elements below it; the form itself
when inputs are among its children. -/
def parents (form : Dom) : List Parent :=
  if hasDirect form then [⟨directFields form, errorTexts form⟩] else parentsIn form

/-- The children of a parent element after `validateField` ran on the first
`n` of its inputs. -/
def runParent (n : Nat) (ks : Dom) : Dom :=
  (List.range' 0 n).foldl (fun d j => (validateField d j).2) ks

/-- The siblings after `validateField` ran on the first `n` inputs below the
elements among them, when parents of inputs are not nested. -/
def upToIn (n : Nat) : Dom → Dom
  | nil => nil
  | field f next => field f (upToIn n next)
  | error t next => error t (upToIn n next)
  | elem kids next =>
    elem (if hasDirect kids then runParent n kids else upToIn n kids)
      (upToIn (n - count kids) next)

/-- The form after `validateField` ran on its first `n` inputs, when parents
of inputs are not nested. -/
def upTo (n : Nat) (form : Dom) : Dom :=
  if hasDirect form then runParent n form else upToIn n form

end Dom

namespace Dom

/-- Number of inputs of the list and below it that come before the `j`-th
input among the siblings themselves, in document order. -/
def before : Nat → Dom → Nat
  | _, nil => 0
  | 0, field _ _ => 0
  | j + 1, field _ next => before j next + 1
  | j, error _ next => before j next
  | j, elem kids next => count kids + before j next

end Dom

/-! ## Correctness of the matcher -/

namespace Regex

theorem nullable_iff (r : Regex) : nullable r = true ↔ Lang r [] := by
  induction r with
  | empty => simp [nullable, Lang]
  | eps => simp [nullable, Lang]
  | cls p => simp [nullable, Lang]
  | seq r s ihr ihs =>
    simp only [nullable, Lang, Bool.and_eq_true, ihr, ihs]
    constructor
    · rintro ⟨h1, h2⟩
      exact ⟨[], [], rfl, h1, h2⟩
    · rintro ⟨u, v, h, h1, h2⟩
      have hu : u = [] := (List.append_eq_nil.mp h.symm).1
      have hv : v = [] := (List.append_eq_nil.mp h.symm).2
      subst hu; subst hv
      exact ⟨h1, h2⟩
  | alt r s ihr ihs => simp only [nullable, Lang, Bool.or_eq_true, ihr, ihs]
  | star r _ =>
    simp only [nullable, Lang, true_iff]
    exact ⟨[], rfl, by simp⟩

theorem lang_seq_cons (r s : Regex) (c : Char) (w : List Char) :
    Lang (seq r s) (c :: w) ↔
      (Lang r [] ∧ Lang s (c :: w)) ∨ ∃ u v, w = u ++ v ∧ Lang r (c :: u) ∧ Lang s v := by
  simp only [Lang]
  constructor
  · rintro ⟨u, v, h, h1, h2⟩
    cases u with
    | nil =>
      left
      simp only [List.nil_append] at h
      subst h
      exact ⟨h1, h2⟩
    | cons a u =>
      right
      simp only [List.cons_append, List.cons.injEq] at h
      obtain ⟨rfl, rfl⟩ := h
      exact ⟨u, v, rfl, h1, h2⟩
  · rintro (⟨h1, h2⟩ | ⟨u, v, rfl, h1, h2⟩)
    · exact ⟨[], c :: w, rfl, h1, h2⟩
    · exact ⟨c :: u, v, rfl, h1, h2⟩

theorem lang_star_cons (r : Regex) (c : Char) (w : List Char) :
    Lang (star r) (c :: w) ↔ ∃ u v, w = u ++ v ∧ Lang r (c :: u) ∧ Lang (star r) v := by
  simp only [Lang]
  constructor
  · rintro ⟨parts, h, hp⟩
    cases parts with
    | nil => simp at h
    | cons p ps =>
      have hp1 := hp p (List.mem_cons_self _ _)
      cases p with
      | nil => exact absurd rfl hp1.1
      | cons a u =>
        simp only [List.flatten_cons, List.cons_append, List.cons.injEq] at h
        obtain ⟨rfl, rfl⟩ := h
        exact ⟨u, ps.flatten, rfl, hp1.2, ps, rfl, fun x hx => hp x (List.mem_cons_of_mem _ hx)⟩
  · rintro ⟨u, v, rfl, h1, parts, rfl, hp⟩
    refine ⟨(c :: u) :: parts, by simp, ?_⟩
    intro x hx
    rcases List.mem_cons.mp hx with rfl | hx
    · exact ⟨by simp, h1⟩
    · exact hp x hx

theorem lang_deriv (r : Regex) (c : Char) (w : List Char) :
    Lang (deriv r c) w ↔ Lang r (c :: w) := by
  induction r generalizing w with
  | empty => simp [deriv, Lang]
  | eps => simp [deriv, Lang]
  | cls p =>
    by_cases h : p c = true
    · simp only [deriv, h, if_true, Lang]
      constructor
      · rintro rfl
        exact ⟨c, rfl, h⟩
      · rintro ⟨a, ha, _⟩
        simp only [List.cons.injEq] at ha
        exact ha.2
    · simp only [deriv, h, Bool.false_eq_true, if_false, Lang, false_iff]
      rintro ⟨a, ha, hpa⟩
      simp only [List.cons.injEq] at ha
      exact h (ha.1 ▸ hpa)
  | seq r s ihr ihs =>
    rw [lang_seq_cons]
    by_cases hn : nullable r = true
    · simp only [deriv, hn, if_true, Lang, ihr, ihs]
      rw [nullable_iff] at hn
      constructor
      · rintro (h | h)
        · exact Or.inr h
        · exact Or.inl ⟨hn, h⟩
      · rintro (h | h)
        · exact Or.inr h.2
        · exact Or.inl h
    · simp only [deriv, hn, Bool.false_eq_true, if_false, Lang, ihr]
      rw [nullable_iff] at hn
      constructor
      · intro h
        exact Or.inr h
      · rintro (h | h)
        · exact absurd h.1 hn
        · exact h
  | alt r s ihr ihs => simp only [deriv, Lang, ihr, ihs]
  | star r ih =>
    rw [lang_star_cons]
    simp only [deriv]
    constructor
    · rintro ⟨u, v, h, h1, h2⟩
      exact ⟨u, v, h, (ih u).mp h1, h2⟩
    · rintro ⟨u, v, h, h1, h2⟩
      exact ⟨u, v, h, (ih u).mpr h1, h2⟩

theorem test_iff (r : Regex) (w : List Char) : test r w = true ↔ Lang r w := by
  induction w generalizing r with
  | nil => exact nullable_iff r
  | cons c cs ih => rw [test, ih, lang_deriv]

theorem lang_star_cls (p : Char → Bool) (w : List Char) :
    Lang (star (cls p)) w ↔ ∀ c ∈ w, p c = true := by
  induction w with
  | nil =>
    simp only [List.not_mem_nil, false_imp_iff, implies_true, iff_true]
    exact ⟨[], rfl, by simp⟩
  | cons a w ih =>
    rw [lang_star_cons]
    constructor
    · rintro ⟨u, v, rfl, ⟨b, hb, hpb⟩, hv⟩
      simp only [List.cons.injEq] at hb
      obtain ⟨rfl, rfl⟩ := hb
      simp only [List.nil_append] at ih ⊢
      intro c hc
      rcases List.mem_cons.mp hc with rfl | hc
      · exact hpb
      · exact ih.mp hv c hc
    · intro h
      exact ⟨[], w, rfl, ⟨a, rfl, h a (List.mem_cons_self _ _)⟩,
        ih.mpr (fun c hc => h c (List.mem_cons_of_mem _ hc))⟩

theorem lang_plus_cls (p : Char → Bool) (w : List Char) :
    Lang (plus (cls p)) w ↔ w ≠ [] ∧ ∀ c ∈ w, p c = true := by
  cases w with
  | nil =>
    simp only [plus, ne_eq, not_true_eq_false, false_and, iff_false]
    rintro ⟨u, v, h, ⟨c, hc, _⟩, _⟩
    subst hc
    simp at h
  | cons a w =>
    rw [plus, lang_seq_cons]
    simp only [ne_eq, reduceCtorEq, not_false_eq_true, true_and]
    constructor
    · rintro (⟨⟨c, hc, _⟩, _⟩ | ⟨u, v, rfl, ⟨b, hb, hpb⟩, hv⟩)
      · simp at hc
      · simp only [List.cons.injEq] at hb
        obtain ⟨rfl, rfl⟩ := hb
        intro c hc
        rcases List.mem_cons.mp hc with rfl | hc
        · exact hpb
        · exact (lang_star_cls p _).mp hv c (by simpa using hc)
    · intro h
      exact Or.inr ⟨[], w, rfl, ⟨a, rfl, h a (List.mem_cons_self _ _)⟩,
        (lang_star_cls p w).mpr (fun c hc => h c (List.mem_cons_of_mem _ hc))⟩

end Regex

theorem Regex.lang_seq (r s : Regex) (w : List Char) :
    Regex.Lang (.seq r s) w ↔ ∃ u v, w = u ++ v ∧ Regex.Lang r u ∧ Regex.Lang s v := by
  simp only [Regex.Lang]

theorem Regex.lang_cls (p : Char → Bool) (w : List Char) :
    Regex.Lang (.cls p) w ↔ ∃ c, w = [c] ∧ p c = true := by
  simp only [Regex.Lang]

theorem isValidPhone_iff (w : List Char) :
    isValidPhone w = true ↔ w ≠ [] ∧ ∀ c ∈ w, phoneChar c = true := by
  rw [isValidPhone, Regex.test_iff, phonePattern, Regex.lang_plus_cls]

theorem isValidEmail_iff_parts (w : List Char) :
    isValidEmail w = true ↔
      ∃ l d t, w = l ++ '@' :: (d ++ '.' :: t) ∧
        (l ≠ [] ∧ ∀ c ∈ l, notSpaceAt c = true) ∧
        (d ≠ [] ∧ ∀ c ∈ d, notSpaceAt c = true) ∧
        (t ≠ [] ∧ ∀ c ∈ t, notSpaceAt c = true) := by
  rw [isValidEmail, Regex.test_iff, emailPattern]
  simp only [Regex.lang_seq, Regex.lang_cls, Regex.lang_plus_cls, beq_iff_eq]
  constructor
  · rintro ⟨l, r1, rfl, hl, a, r2, rfl, ⟨c1, rfl, rfl⟩, d, r3, rfl, hd, b, t, rfl, ⟨c2, rfl, rfl⟩, ht⟩
    exact ⟨l, d, t, by simp, hl, hd, ht⟩
  · rintro ⟨l, d, t, rfl, hl, hd, ht⟩
    exact ⟨l, _, rfl, hl, ['@'], _, rfl, ⟨'@', rfl, rfl⟩, d, _, rfl, hd, ['.'], t, rfl,
      ⟨'.', rfl, rfl⟩, ht⟩

theorem notSpaceAt_iff (c : Char) : notSpaceAt c = true ↔ isSpace c = false ∧ c ≠ '@' := by
  simp [notSpaceAt]

theorem isValidEmail_iff (w : List Char) :
    isValidEmail w = true ↔
      (∀ c ∈ w, isSpace c = false) ∧ w.count '@' = 1 ∧
        ∃ l d t, w = l ++ '@' :: (d ++ '.' :: t) ∧ l ≠ [] ∧ d ≠ [] ∧ t ≠ [] := by
  rw [isValidEmail_iff_parts]
  constructor
  · rintro ⟨l, d, t, rfl, ⟨hl, hl2⟩, ⟨hd, hd2⟩, ⟨ht, ht2⟩⟩
    refine ⟨?_, ?_, l, d, t, rfl, hl, hd, ht⟩
    · intro c hc
      simp only [List.mem_append, List.mem_cons] at hc
      rcases hc with hc | rfl | hc | rfl | hc
      · exact ((notSpaceAt_iff c).mp (hl2 c hc)).1
      · decide
      · exact ((notSpaceAt_iff c).mp (hd2 c hc)).1
      · decide
      · exact ((notSpaceAt_iff c).mp (ht2 c hc)).1
    · have h1 : l.count '@' = 0 :=
        List.count_eq_zero.mpr (fun h => ((notSpaceAt_iff _).mp (hl2 _ h)).2 rfl)
      have h2 : d.count '@' = 0 :=
        List.count_eq_zero.mpr (fun h => ((notSpaceAt_iff _).mp (hd2 _ h)).2 rfl)
      have h3 : t.count '@' = 0 :=
        List.count_eq_zero.mpr (fun h => ((notSpaceAt_iff _).mp (ht2 _ h)).2 rfl)
      simp [List.count_cons, h1, h2, h3]
  · rintro ⟨hs, hc, l, d, t, rfl, hl, hd, ht⟩
    simp only [List.count_append, List.count_cons, beq_self_eq_true, if_true] at hc
    have hdot : (('.' : Char) == '@') = false := by decide
    simp only [hdot, Bool.false_eq_true, if_false] at hc
    have h1 : l.count '@' = 0 := by omega
    have h2 : d.count '@' = 0 := by omega
    have h3 : t.count '@' = 0 := by omega
    rw [List.count_eq_zero] at h1 h2 h3
    refine ⟨l, d, t, rfl, ⟨hl, ?_⟩, ⟨hd, ?_⟩, ⟨ht, ?_⟩⟩
    · intro c hcl
      exact (notSpaceAt_iff c).mpr ⟨hs c (by simp [hcl]), fun h => h1 (h ▸ hcl)⟩
    · intro c hcl
      exact (notSpaceAt_iff c).mpr ⟨hs c (by simp [hcl]), fun h => h2 (h ▸ hcl)⟩
    · intro c hcl
      exact (notSpaceAt_iff c).mpr ⟨hs c (by simp [hcl]), fun h => h3 (h ▸ hcl)⟩

/-! ## Rule cascade of `validateField` -/

theorem tail_eq_nil_of_length_le_one {α : Type} (l : List α) (h : l.length ≤ 1) :
    l.tail = [] := by
  cases l with
  | nil => rfl
  | cons a t =>
    cases t with
    | nil => rfl
    | cons b u => simp at h

theorem isEmpty_eq_true_iff (l : List Char) : l.isEmpty = true ↔ l = [] := by
  cases l <;> simp

theorem isEmpty_eq_false_iff (l : List Char) : l.isEmpty = false ↔ ¬ l = [] := by
  cases l <;> simp

/-- C1 (amended): `validateField` applies its rules in order, first match wins,
for every input and every display. A required input with an empty trimmed
value gives `false` and `showError` with "This field is required", whatever
the type; else an `email` input with a non-empty trimmed value failing the
email pattern gives `false` and "Please enter a valid email address"; else a
`tel` input with a non-empty trimmed value failing the phone pattern gives
`false` and "Please enter a valid phone number"; otherwise the result is
`true` and `clearError` runs. When at most one error element lies below the
parent element of the input, `showError` leaves exactly the message displayed
and the input marked errored, and `clearError` leaves no error displayed and
the input not marked. -/
theorem validateField_rules (c : InputCtx) :
    validateField c =
      (if c.input.required = true ∧ jsTrim c.input.value = [] then
        (false, showError c "This field is required")
      else if c.input.type = "email" ∧ jsTrim c.input.value ≠ [] ∧
          isValidEmail (jsTrim c.input.value) = false then
        (false, showError c "Please enter a valid email address")
      else if c.input.type = "tel" ∧ jsTrim c.input.value ≠ [] ∧
          isValidPhone (jsTrim c.input.value) = false then
        (false, showError c "Please enter a valid phone number")
      else
        (true, clearError c)) ∧
    (c.parentErrors.length ≤ 1 →
      (∀ message : String,
        showError c message = ⟨{ c.input with errorClass := true }, [message]⟩) ∧
      clearError c = ⟨{ c.input with errorClass := false }, []⟩) := by
  refine ⟨?_, ?_⟩
  · simp only [validateField, verdict, Bool.and_eq_true, beq_iff_eq, Bool.not_eq_true',
      isEmpty_eq_true_iff, isEmpty_eq_false_iff, and_assoc, ne_eq]
    split_ifs <;> simp_all
  · intro h
    have ht := tail_eq_nil_of_length_le_one c.parentErrors h
    simp [showError, clearError, ht]

/-- Witness of C1: a required `email` input holding only whitespace, with a
stale email error displayed, ends with "This field is required" alone. -/
theorem validateField_rules_witness :
    (["Please enter a valid email address"] : List String).length ≤ 1 ∧
    validateField ⟨⟨" \t", "email", true, "", false⟩, ["Please enter a valid email address"]⟩ =
      (false, ⟨⟨" \t", "email", true, "", true⟩, ["This field is required"]⟩) ∧
    showError ⟨⟨" \t", "email", true, "", false⟩, ["Please enter a valid email address"]⟩
        "This field is required" =
      ⟨⟨" \t", "email", true, "", true⟩, ["This field is required"]⟩ :=
  ⟨by decide,
    (validateField_rules
      ⟨⟨" \t", "email", true, "", false⟩, ["Please enter a valid email address"]⟩).1.trans
      (by decide),
    ((validateField_rules
      ⟨⟨" \t", "email", true, "", false⟩, ["Please enter a valid email address"]⟩).2
      (by decide)).1 "This field is required"⟩

/-- Counterexample to C1 as stated: with two error elements below the parent,
a valid input is left with an error displayed, and for a required empty input
the display is not the required message alone. -/
theorem validateField_rules_counterexample :
    validateField ⟨⟨"ok", "text", false, "", true⟩, ["x", "y"]⟩ =
      (true, ⟨⟨"ok", "text", false, "", false⟩, ["y"]⟩) ∧
    validateField ⟨⟨"", "tel", true, "", false⟩, ["x", "y"]⟩ =
      (false, ⟨⟨"", "tel", true, "", true⟩, ["y", "This field is required"]⟩) := by
  decide

/-! ## Email and phone rules -/

theorem verdict_email (f : Field) (hty : f.type = "email") (hne : jsTrim f.value ≠ []) :
    verdict f = if isValidEmail (jsTrim f.value) = true then (true, "")
      else (false, "Please enter a valid email address") := by
  have he : (jsTrim f.value).isEmpty = false := (isEmpty_eq_false_iff _).mpr hne
  have hne2 : ("email" == "tel") = false := by decide
  simp only [verdict, hty, he, Bool.and_false, Bool.false_eq_true, if_false, beq_self_eq_true,
    Bool.not_false, Bool.true_and, Bool.and_true, hne2, Bool.false_and]
  cases isValidEmail (jsTrim f.value) <;> simp

theorem verdict_tel (f : Field) (hty : f.type = "tel") (hne : jsTrim f.value ≠ []) :
    verdict f = if isValidPhone (jsTrim f.value) = true then (true, "")
      else (false, "Please enter a valid phone number") := by
  have he : (jsTrim f.value).isEmpty = false := (isEmpty_eq_false_iff _).mpr hne
  have hne2 : ("tel" == "email") = false := by decide
  simp only [verdict, hty, he, Bool.and_false, Bool.false_eq_true, if_false, beq_self_eq_true,
    Bool.not_false, Bool.true_and, Bool.and_true, hne2, Bool.false_and]
  cases isValidPhone (jsTrim f.value) <;> simp

/-- C2 (amended): for an `email` input whose trimmed value is non-empty,
`validateField` returns `true` exactly when the trimmed value has no
whitespace character, exactly one `@`, at least one character before the `@`,
and after the `@` a `.` with at least one character between the `@` and it
and at least one character after it; when it returns `false` it displays
"Please enter a valid email address". "a@b.com" is valid, "not-an-email" is
invalid with that message, and an empty value on a non-required `email` input
is valid. -/
theorem validateField_email (c : InputCtx) (hty : c.input.type = "email")
    (hne : jsTrim c.input.value ≠ []) :
    ((validateField c).1 = true ↔
      (∀ ch ∈ jsTrim c.input.value, isSpace ch = false) ∧
      (jsTrim c.input.value).count '@' = 1 ∧
      ∃ l d t, jsTrim c.input.value = l ++ '@' :: (d ++ '.' :: t) ∧ l ≠ [] ∧ d ≠ [] ∧ t ≠ []) ∧
    ((validateField c).1 = false →
      (validateField c).2 = showError c "Please enter a valid email address") ∧
    (∀ req dv ec errs, (validateField ⟨⟨"a@b.com", "email", req, dv, ec⟩, errs⟩).1 = true) ∧
    (∀ req dv ec errs, validateField ⟨⟨"not-an-email", "email", req, dv, ec⟩, errs⟩ =
      (false, showError ⟨⟨"not-an-email", "email", req, dv, ec⟩, errs⟩
        "Please enter a valid email address")) ∧
    (∀ dv ec errs, (validateField ⟨⟨"", "email", false, dv, ec⟩, errs⟩).1 = true) := by
  refine ⟨?_, ?_, ?_, ?_, ?_⟩
  · rw [← isValidEmail_iff]
    simp only [validateField, verdict_email c.input hty hne]
    cases isValidEmail (jsTrim c.input.value) <;> simp
  · simp only [validateField, verdict_email c.input hty hne]
    cases isValidEmail (jsTrim c.input.value) <;> simp
  · intro req dv ec errs
    have h := verdict_email ⟨"a@b.com", "email", req, dv, ec⟩ rfl (show jsTrim "a@b.com" ≠ [] from by decide)
    have hv : isValidEmail (jsTrim "a@b.com") = true := by decide
    simp only [hv, if_true] at h
    simp [validateField, h]
  · intro req dv ec errs
    have h := verdict_email ⟨"not-an-email", "email", req, dv, ec⟩ rfl (show jsTrim "not-an-email" ≠ [] from by decide)
    have hv : isValidEmail (jsTrim "not-an-email") = false := by decide
    simp only [hv, Bool.false_eq_true, if_false] at h
    simp [validateField, h]
  · intro dv ec errs
    have h : verdict ⟨"", "email", false, dv, ec⟩ = (true, "") := by
      simp [verdict, show jsTrim "" = [] from by decide]
    simp [validateField, h]

/-- Witness of C2: "a@b.c.com" splits as `a`, `b.c`, `com` and is accepted. -/
theorem validateField_email_witness :
    jsTrim "a@b.c.com" ≠ [] ∧
    (validateField ⟨⟨"a@b.c.com", "email", true, "", false⟩, []⟩).1 = true :=
  ⟨by decide,
    ((validateField_email ⟨⟨"a@b.c.com", "email", true, "", false⟩, []⟩ rfl (by decide)).1).mpr
      ⟨by decide, by decide, "a".data, "b.c".data, "com".data, by decide, by decide, by decide,
        by decide⟩⟩

/-- Counterexample to C2 as stated: "@b.com" has exactly one `@`, a `.` after it
and no whitespace, yet `validateField` rejects it with the email message. -/
theorem validateField_email_counterexample :
    jsTrim "@b.com" ≠ [] ∧ specEmailCriterion (jsTrim "@b.com") = true ∧
    validateField ⟨⟨"@b.com", "email", false, "", false⟩, []⟩ =
      (false, ⟨⟨"@b.com", "email", false, "", true⟩, ["Please enter a valid email address"]⟩) := by
  decide

/-- C3 (amended): for a `tel` input whose trimmed value is non-empty,
`validateField` returns `false` exactly when the trimmed value holds a
character that is neither a decimal digit, nor a whitespace character (any
character of `\s`, not only the space), nor one of `-`, `+`, `(`, `)`; it then
displays "Please enter a valid phone number". "+1 (555) 123-4567" is valid and
"call me" is invalid with that message. -/
theorem validateField_tel (c : InputCtx) (hty : c.input.type = "tel")
    (hne : jsTrim c.input.value ≠ []) :
    ((validateField c).1 = false ↔
      ∃ ch ∈ jsTrim c.input.value, isDigit ch = false ∧ isSpace ch = false ∧
        ch ≠ '-' ∧ ch ≠ '+' ∧ ch ≠ '(' ∧ ch ≠ ')') ∧
    ((validateField c).1 = false →
      (validateField c).2 = showError c "Please enter a valid phone number") ∧
    (∀ req dv ec errs,
      (validateField ⟨⟨"+1 (555) 123-4567", "tel", req, dv, ec⟩, errs⟩).1 = true) ∧
    (∀ req dv ec errs, validateField ⟨⟨"call me", "tel", req, dv, ec⟩, errs⟩ =
      (false, showError ⟨⟨"call me", "tel", req, dv, ec⟩, errs⟩
        "Please enter a valid phone number")) := by
  refine ⟨?_, ?_, ?_, ?_⟩
  · have hp : isValidPhone (jsTrim c.input.value) = false ↔
        ∃ ch ∈ jsTrim c.input.value, isDigit ch = false ∧ isSpace ch = false ∧
          ch ≠ '-' ∧ ch ≠ '+' ∧ ch ≠ '(' ∧ ch ≠ ')' := by
      rw [← Bool.not_eq_true, isValidPhone_iff]
      simp only [not_and, not_forall, Bool.not_eq_true, phoneChar, Bool.or_eq_false_iff,
        beq_eq_false_iff_ne, ne_eq, and_assoc, exists_prop]
      constructor
      · intro h
        exact h hne
      · intro h _
        exact h
    rw [← hp]
    simp only [validateField, verdict_tel c.input hty hne]
    cases isValidPhone (jsTrim c.input.value) <;> simp
  · simp only [validateField, verdict_tel c.input hty hne]
    cases isValidPhone (jsTrim c.input.value) <;> simp
  · intro req dv ec errs
    have h := verdict_tel ⟨"+1 (555) 123-4567", "tel", req, dv, ec⟩ rfl (show jsTrim "+1 (555) 123-4567" ≠ [] from by decide)
    have hv : isValidPhone (jsTrim "+1 (555) 123-4567") = true := by decide
    simp only [hv, if_true] at h
    simp [validateField, h]
  · intro req dv ec errs
    have h := verdict_tel ⟨"call me", "tel", req, dv, ec⟩ rfl (show jsTrim "call me" ≠ [] from by decide)
    have hv : isValidPhone (jsTrim "call me") = false := by decide
    simp only [hv, Bool.false_eq_true, if_false] at h
    simp [validateField, h]

/-- Witness of C3: "555 x12" holds the letter `x` and is rejected. -/
theorem validateField_tel_witness :
    jsTrim "555 x12" ≠ [] ∧
    (validateField ⟨⟨"555 x12", "tel", false, "", false⟩, []⟩).1 = false :=
  ⟨by decide,
    ((validateField_tel ⟨⟨"555 x12", "tel", false, "", false⟩, []⟩ rfl (by decide)).1).mpr
      ⟨'x', by decide, by decide, by decide, by decide, by decide, by decide, by decide⟩⟩

/-- Counterexample to C3 as stated: "1", tab, "2" holds a character outside
digits, the space character and `- + ( )`, yet `validateField` accepts it and
displays nothing. -/
theorem validateField_tel_counterexample :
    jsTrim "1\t2" ≠ [] ∧ (jsTrim "1\t2").any (fun ch => !specPhoneChar ch) = true ∧
    validateField ⟨⟨"1\t2", "tel", false, "", false⟩, []⟩ =
      (true, ⟨⟨"1\t2", "tel", false, "", false⟩, []⟩) := by
  decide

/-! ## The loop of `validateForm` -/

theorem validateField_eq (f : Field) (errs : List String) :
    validateField ⟨f, errs⟩ = ((verdict f).1, ⟨marked f, errorsAfter errs f⟩) := by
  simp only [validateField, marked, errorsAfter, showError, clearError]
  cases (verdict f).1 <;> simp

theorem getElem?_append_cons {α : Type} (l1 l2 : List α) (a : α) :
    (l1 ++ a :: l2)[l1.length]? = some a := by
  induction l1 with
  | nil => simp
  | cons b l ih => simpa using ih

theorem set_append_cons {α : Type} (l1 l2 : List α) (a b : α) :
    (l1 ++ a :: l2).set l1.length b = l1 ++ b :: l2 := by
  induction l1 with
  | nil => rfl
  | cons c l ih => simp [ih]

theorem onField_validateField (done todo : List Field) (f : Field) (errs : List String) :
    onField validateField true ⟨done ++ f :: todo, errs⟩ done.length =
      ((verdict f).1, ⟨done ++ marked f :: todo, errorsAfter errs f⟩) := by
  simp only [onField, getElem?_append_cons, validateField_eq, set_append_cons]

theorem validateFieldAt_mid (pre post : List Parent) (p : Parent) (i : Nat) :
    validateFieldAt (pre ++ p :: post) (pre.length, i) =
      ((onField validateField true p i).1, pre ++ (onField validateField true p i).2 :: post) := by
  simp only [validateFieldAt, atInput, getElem?_append_cons, set_append_cons]

theorem foldl_formStep_parent (pre post : List Parent) (todo : List Field) :
    ∀ (done : List Field) (errs : List String) (b : Bool),
      ((List.range' done.length todo.length).map (fun i => (pre.length, i))).foldl formStep
          (b, pre ++ ⟨done ++ todo, errs⟩ :: post) =
        (b && todo.all (fun f => (verdict f).1),
          pre ++ ⟨done ++ todo.map marked, todo.foldl errorsAfter errs⟩ :: post) := by
  induction todo with
  | nil => intro done errs b; simp
  | cons f rest ih =>
    intro done errs b
    have h := ih (done ++ [marked f]) (errorsAfter errs f) (b && (verdict f).1)
    simp only [List.length_append, List.length_singleton, List.append_assoc,
      List.singleton_append] at h
    simp only [List.length_cons, List.range'_succ, List.map_cons, List.foldl_cons, formStep,
      validateFieldAt_mid, onField_validateField, List.all_cons, List.map_cons]
    have hb : (if (!(verdict f).1) = true then false else b) = (b && (verdict f).1) := by
      cases (verdict f).1 <;> simp
    rw [hb]
    simpa [Bool.and_assoc, formStep] using h

theorem foldl_formStep_parents (ps : List Parent) :
    ∀ (pre : List Parent) (b : Bool),
      (inputsFrom pre.length ps).foldl formStep (b, pre ++ ps) =
        (b && ps.all (fun p => p.fields.all (fun f => (verdict f).1)),
          pre ++ ps.map validatedParent) := by
  induction ps with
  | nil => intro pre b; simp [inputsFrom]
  | cons p rest ih =>
    intro pre b
    have h1 := foldl_formStep_parent pre rest p.fields [] p.errors b
    simp only [List.length_nil, List.nil_append] at h1
    have h2 := ih (pre ++ [validatedParent p]) (b && p.fields.all (fun f => (verdict f).1))
    simp only [List.length_append, List.length_singleton, List.append_assoc,
      List.singleton_append] at h2
    simp only [inputsFrom, List.foldl_append, h1]
    simpa [validatedParent, Bool.and_assoc] using h2

theorem validateForm_eq (ps : List Parent) :
    validateForm ps =
      (ps.all (fun p => p.fields.all (fun f => (verdict f).1)), ps.map validatedParent) := by
  have h := foldl_formStep_parents ps [] true
  simpa [validateForm, inputs, formStep] using h

theorem mem_inputsFrom (ps : List Parent) :
    ∀ (k g i : Nat), (g, i) ∈ inputsFrom k ps ↔
      k ≤ g ∧ ∃ p, ps[g - k]? = some p ∧ i < p.fields.length := by
  induction ps with
  | nil => intro k g i; simp [inputsFrom]
  | cons p rest ih =>
    intro k g i
    simp only [inputsFrom, List.mem_append, List.mem_map, List.mem_range'_1, Prod.mk.injEq, ih]
    constructor
    · rintro (⟨j, ⟨_, hj⟩, rfl, rfl⟩ | ⟨hk, q, hq, hi⟩)
      · exact ⟨le_refl _, p, by simp, by simpa using hj⟩
      · refine ⟨by omega, q, ?_, hi⟩
        have : g - k = (g - (k + 1)) + 1 := by omega
        rw [this]
        simpa using hq
    · rintro ⟨hk, q, hq, hi⟩
      by_cases hg : g = k
      · subst hg
        simp only [Nat.sub_self, List.getElem?_cons_zero, Option.some.injEq] at hq
        subst hq
        exact Or.inl ⟨i, ⟨Nat.zero_le _, by simpa using hi⟩, rfl, rfl⟩
      · right
        refine ⟨by omega, q, ?_, hi⟩
        have : g - k = (g - (k + 1)) + 1 := by omega
        rw [this] at hq
        simpa using hq

theorem mem_inputs_iff (ps : List Parent) (a : Addr) :
    a ∈ inputs ps ↔ ∃ f, fieldAt ps a = some f := by
  obtain ⟨g, i⟩ := a
  rw [inputs, mem_inputsFrom]
  simp only [Nat.zero_le, Nat.sub_zero, true_and, fieldAt]
  constructor
  · rintro ⟨p, hp, hi⟩
    exact ⟨p.fields[i], by simp [hp, hi]⟩
  · rintro ⟨f, hf⟩
    cases hp : ps[g]? with
    | none => simp [hp] at hf
    | some p =>
      simp only [hp, Option.some_bind] at hf
      exact ⟨p, rfl, (List.getElem?_eq_some_iff.mp hf).1⟩

theorem validateFieldAt_fst (ps : List Parent) (a : Addr) (f : Field)
    (h : fieldAt ps a = some f) : (validateFieldAt ps a).1 = (verdict f).1 := by
  simp only [fieldAt] at h
  cases hp : ps[a.1]? with
  | none => simp [hp] at h
  | some p =>
    simp only [hp, Option.some_bind] at h
    simp [validateFieldAt, atInput, onField, hp, h, validateField_eq]

theorem foldl_formStep_snd (l : List Addr) :
    ∀ (b : Bool) (st : List Parent),
      (l.foldl formStep (b, st)).2 = l.foldl (fun st a => (validateFieldAt st a).2) st := by
  induction l with
  | nil => intro b st; rfl
  | cons a l ih => intro b st; simp only [List.foldl_cons, formStep, ih]

theorem fieldAt_map_validatedParent (ps : List Parent) (a : Addr) :
    fieldAt (ps.map validatedParent) a = (fieldAt ps a).map marked := by
  simp only [fieldAt, List.getElem?_map]
  cases ps[a.1]? with
  | none => rfl
  | some p => simp [validatedParent, List.getElem?_map]

theorem nodup_inputsFrom (ps : List Parent) :
    ∀ k : Nat, (inputsFrom k ps).Nodup := by
  induction ps with
  | nil => intro k; simp [inputsFrom]
  | cons p rest ih =>
    intro k
    simp only [inputsFrom]
    refine List.Nodup.append ?_ (ih (k + 1)) ?_
    · refine List.Nodup.map ?_ (List.nodup_range' 0 _)
      intro a b hab
      simpa using hab
    · intro a ha hb
      obtain ⟨g, i⟩ := a
      simp only [List.mem_map, List.mem_range'_1, Prod.mk.injEq] at ha
      obtain ⟨j, _, rfl, rfl⟩ := ha
      have := ((mem_inputsFrom rest (k + 1) _ _).mp hb).1
      omega

/-! ## Error display -/

theorem verdict_marked (f : Field) : verdict (marked f) = verdict f := rfl

theorem marked_marked (f : Field) : marked (marked f) = marked f := rfl

/-- C6 (amended): for every input whose parent element shows at most one error
element, a second `validateField` in succession returns the same boolean and
leaves the display of the first call unchanged, and that display holds no
error element when the input is valid and exactly one, carrying the input's
message, when it is invalid. -/
theorem validateField_idempotent (c : InputCtx) (h : c.parentErrors.length ≤ 1) :
    (validateField (validateField c).2).1 = (validateField c).1 ∧
    (validateField (validateField c).2).2 = (validateField c).2 ∧
    (validateField c).2.parentErrors =
      (if (validateField c).1 = true then [] else [(verdict c.input).2]) := by
  obtain ⟨f, errs⟩ := c
  have ht := tail_eq_nil_of_length_le_one errs h
  simp only [validateField_eq, verdict_marked, marked_marked, errorsAfter, ht, List.nil_append]
  cases hv : (verdict f).1 <;> simp

/-- Witness of C6: a `tel` input holding "call me" next to a stale error. -/
theorem validateField_idempotent_witness :
    (["This field is required"] : List String).length ≤ 1 ∧
    (validateField (validateField
      ⟨⟨"call me", "tel", true, "", false⟩, ["This field is required"]⟩).2) =
      (false, ⟨⟨"call me", "tel", true, "", true⟩, ["Please enter a valid phone number"]⟩) :=
  ⟨by decide, by
    have h := validateField_idempotent
      ⟨⟨"call me", "tel", true, "", false⟩, ["This field is required"]⟩ (by decide)
    exact Prod.ext h.1 h.2.1 |>.trans (by decide)⟩

/-- Counterexample to C6 as stated: with two error elements in the parent at the
start, the display after the second call differs from the display after the
first, and it holds the message twice. -/
theorem validateField_idempotent_counterexample :
    (validateField ⟨⟨"", "text", true, "", false⟩, ["x", "y"]⟩).2.parentErrors =
      ["y", "This field is required"] ∧
    (validateField (validateField ⟨⟨"", "text", true, "", false⟩, ["x", "y"]⟩).2).2.parentErrors =
      ["This field is required", "This field is required"] := by
  decide

/-! ## Submission lifecycle -/

theorem onSubmit_valid (s : Page) (b : Button) (hb : s.submitBtn = some b)
    (hv : (validateForm s.parents).1 = true) :
    onSubmit s =
      { s with
        parents := (validateForm s.parents).2
        submitBtn := some ⟨"Sending...", true⟩
        timers := s.timers ++ [⟨s.now + 2000, .submitDone b.textContent⟩] } := by
  simp [onSubmit, hv, handleFormSubmission, hb, setTimeout]

theorem onSubmit_invalid (s : Page) (hv : (validateForm s.parents).1 = false) :
    onSubmit s = { s with parents := (validateForm s.parents).2 } := by
  simp [onSubmit, hv]

theorem fieldValues_validateForm (ps : List Parent) :
    fieldValues (validateForm ps).2 = fieldValues ps := by
  simp [validateForm_eq, fieldValues, validatedParent, marked, Function.comp_def]

theorem resetForm_values (ps : List Parent) :
    ∀ p ∈ resetForm ps, ∀ f ∈ p.fields, f.value = f.defaultValue := by
  intro p hp f hf
  simp only [resetForm, List.mem_map] at hp
  obtain ⟨q, _, rfl⟩ := hp
  simp only [List.mem_map] at hf
  obtain ⟨g, _, rfl⟩ := hf
  rfl

/-- C7 (amended): for every page whose form has a submit button and validates
at submit time, the submit listener synchronously disables the button, sets
its label to "Sending..." and schedules the completion 2000 ms ahead with the
label the button had; whenever the completion runs, the button is enabled
again with exactly that label, every field value of the form is its default
value (the empty string for a field declared without one), and exactly one
toast, of type `success`, is added; with no other timer pending the next
timer turn is that completion. -/
theorem submission_lifecycle (s : Page) (b : Button) (hb : s.submitBtn = some b)
    (hv : (validateForm s.parents).1 = true) :
    onSubmit s =
      { s with
        parents := (validateForm s.parents).2
        submitBtn := some ⟨"Sending...", true⟩
        timers := s.timers ++ [⟨s.now + 2000, .submitDone b.textContent⟩] } ∧
    (∀ s' : Page, s'.submitBtn ≠ none →
      (fire s' (.submitDone b.textContent)).submitBtn = some ⟨b.textContent, false⟩ ∧
      (∀ p ∈ (fire s' (.submitDone b.textContent)).parents, ∀ f ∈ p.fields,
        f.value = f.defaultValue) ∧
      (fire s' (.submitDone b.textContent)).toastContainer =
        s'.toastContainer ++
          [⟨s'.nextId, "toast toast-success", "Message sent successfully!", false⟩]) ∧
    (s.timers = [] →
      tick (onSubmit s) =
        { now := s.now + 2000
          timers := [⟨s.now + 2100, .toastShow s.nextId⟩, ⟨s.now + 5000, .toastHide s.nextId⟩]
          toastContainer := s.toastContainer ++
            [⟨s.nextId, "toast toast-success", "Message sent successfully!", false⟩]
          nextId := s.nextId + 1
          parents := resetForm (validateForm s.parents).2
          submitBtn := some ⟨b.textContent, false⟩ }) := by
  refine ⟨onSubmit_valid s b hb hv, ?_, ?_⟩
  · intro s' hs'
    refine ⟨?_, ?_, ?_⟩
    · cases h : s'.submitBtn with
      | none => exact absurd h hs'
      | some c => simp [fire, showToast, setTimeout, h]
    · exact resetForm_values _
    · simp [fire, showToast, setTimeout]
  · intro ht
    rw [onSubmit_valid s b hb hv]
    simp [tick, ht, earliest, fire, showToast, setTimeout]


/-- Witness of C7: the form with one required text input, end to end. -/
theorem submission_lifecycle_witness :
    (validateForm contactPage.parents).1 = true ∧
    run contactPage [.pressSubmit, .timer] =
      { now := 2000
        timers := [⟨2100, .toastShow 0⟩, ⟨5000, .toastHide 0⟩]
        toastContainer := [⟨0, "toast toast-success", "Message sent successfully!", false⟩]
        nextId := 1
        parents := [⟨[⟨"", "text", true, "", false⟩], []⟩]
        submitBtn := some ⟨"Send", false⟩ } :=
  ⟨by decide,
    ((submission_lifecycle contactPage ⟨"Send", false⟩ rfl (by decide)).2.2 rfl).trans
      (by decide)⟩

/-- Counterexample to C7 as stated: the input is declared with the default
value "General enquiry"; the form validates, the button goes through "Sending..."
and back to "Send", and `form.reset()` leaves the value "General enquiry", not
the empty string. -/
theorem submission_lifecycle_counterexample :
    prefilledPage.submitBtn = some ⟨"Send", false⟩ ∧
    (validateForm prefilledPage.parents).1 = true ∧
    (run prefilledPage [.pressSubmit]).submitBtn = some ⟨"Sending...", true⟩ ∧
    (run prefilledPage [.pressSubmit, .timer]).submitBtn = some ⟨"Send", false⟩ ∧
    fieldValues (run prefilledPage [.pressSubmit, .timer]).parents = [["General enquiry"]] := by
  decide

theorem pendingSubmissions_fire (s : Page) (cb : Callback) :
    pendingSubmissions (fire s cb) = pendingSubmissions s := by
  cases cb <;> simp [fire, pendingSubmissions, setTimeout, showToast, isSubmitDone]

theorem filter_erase_length_le (l : List Timer) (t : Timer) :
    ((l.erase t).filter isSubmitDone).length ≤ (l.filter isSubmitDone).length :=
  ((List.erase_sublist t l).filter isSubmitDone).length_le

theorem pendingSubmissions_tick_le (s : Page) :
    pendingSubmissions (tick s) ≤ pendingSubmissions s := by
  unfold tick
  cases h : earliest s.timers with
  | none => exact le_refl _
  | some t =>
    simp only [pendingSubmissions_fire]
    exact filter_erase_length_le s.timers t

theorem pendingSubmissions_onSubmit_invalid (s : Page)
    (hv : (validateForm s.parents).1 = false) :
    pendingSubmissions (onSubmit s) = pendingSubmissions s := by
  rw [onSubmit_invalid s hv]
  rfl

/-- C8: a submission lifecycle starts only at a submit event for which
`validateForm` returned `true`: no event raises the number of lifecycles in
progress unless it is a submit event on a form that validates. When
`validateForm` is `false` the listener changes nothing but the error display
that validation produced: the button, the toasts, the pending timers and the
field values stay as they were. -/
theorem submit_gate (s : Page) :
    (∀ e : Event, pendingSubmissions s < pendingSubmissions (step s e) →
      (e = .submit ∨ e = .pressSubmit) ∧ (validateForm s.parents).1 = true) ∧
    ((validateForm s.parents).1 = false →
      onSubmit s = { s with parents := (validateForm s.parents).2 } ∧
      (onSubmit s).submitBtn = s.submitBtn ∧
      (onSubmit s).toastContainer = s.toastContainer ∧
      (onSubmit s).timers = s.timers ∧
      fieldValues (onSubmit s).parents = fieldValues s.parents) := by
  refine ⟨?_, ?_⟩
  · intro e he
    cases e with
    | pressSubmit =>
      refine ⟨Or.inr rfl, ?_⟩
      by_contra hv
      have hv : (validateForm s.parents).1 = false := by simpa using hv
      simp only [step] at he
      cases hb : s.submitBtn with
      | none => simp [hb] at he
      | some b =>
        simp only [hb] at he
        by_cases hd : b.disabled = true
        · simp [hd] at he
        · simp only [hd, Bool.false_eq_true, if_false] at he
          rw [pendingSubmissions_onSubmit_invalid s hv] at he
          exact lt_irrefl _ he
    | submit =>
      refine ⟨Or.inl rfl, ?_⟩
      by_contra hv
      have hv : (validateForm s.parents).1 = false := by simpa using hv
      simp only [step] at he
      rw [pendingSubmissions_onSubmit_invalid s hv] at he
      exact lt_irrefl _ he
    | edit a v => exact absurd he (lt_irrefl _)
    | blur a => exact absurd he (lt_irrefl _)
    | notify m ty du =>
      have hp : pendingSubmissions (showToast s m ty du) = pendingSubmissions s := by
        simp [pendingSubmissions, showToast, setTimeout, isSubmitDone]
      simp only [step, hp] at he
      exact absurd he (lt_irrefl _)
    | timer => exact absurd he (not_lt.mpr (pendingSubmissions_tick_le s))
    | wait ms => exact absurd he (lt_irrefl _)
  · intro hv
    rw [onSubmit_invalid s hv]
    exact ⟨rfl, rfl, rfl, rfl, fieldValues_validateForm s.parents⟩

/-- Witness of C8: a required input holding a blank; the error stays displayed
and nothing else changes. -/
theorem submit_gate_witness :
    (validateForm [⟨[⟨" ", "text", true, "", false⟩], []⟩]).1 = false ∧
    onSubmit { contactPage with parents := [⟨[⟨" ", "text", true, "", false⟩], []⟩] } =
      { contactPage with
        parents := [⟨[⟨" ", "text", true, "", true⟩], ["This field is required"]⟩] } :=
  ⟨by decide,
    (((submit_gate { contactPage with parents := [⟨[⟨" ", "text", true, "", false⟩], []⟩] }).2
      (by decide)).1).trans (by decide)⟩

theorem earliest_mem (l : List Timer) (t : Timer) (h : earliest l = some t) : t ∈ l := by
  induction l generalizing t with
  | nil => simp [earliest] at h
  | cons a l ih =>
    simp only [earliest] at h
    cases he : earliest l with
    | none =>
      simp only [he, Option.some.injEq] at h
      simp [h]
    | some u =>
      simp only [he] at h
      by_cases hd : a.due ≤ u.due
      · simp only [hd, if_true, Option.some.injEq] at h
        simp [h]
      · simp only [hd, if_false, Option.some.injEq] at h
        subst h
        exact List.mem_cons_of_mem _ (ih u he)

theorem earliest_eq_none (l : List Timer) (h : earliest l = none) : l = [] := by
  cases l with
  | nil => rfl
  | cons a l =>
    simp only [earliest] at h
    cases he : earliest l with
    | none => simp [he] at h
    | some u =>
      simp only [he] at h
      split_ifs at h

theorem filter_erase (p : Timer → Bool) (l : List Timer) (t : Timer) :
    (l.erase t).filter p = (l.filter p).erase t := by
  induction l with
  | nil => rfl
  | cons a l ih =>
    by_cases hat : a = t
    · subst hat
      by_cases hp : p a = true
      · simp [hp]
      · have hnot : a ∉ l.filter p := fun hm => hp (List.mem_filter.mp hm).2
        simp [hp, List.erase_of_not_mem hnot]
    · have hne : (a == t) = false := by simpa using hat
      by_cases hp : p a = true
      · simp [List.erase_cons, hne, hp, ih]
      · simp [List.erase_cons, hne, hp, ih]

theorem fire_submitBtn_of_toast (s : Page) (cb : Callback)
    (h : ∀ orig, cb ≠ .submitDone orig) : (fire s cb).submitBtn = s.submitBtn := by
  cases cb with
  | toastShow id => rfl
  | toastHide id => rfl
  | toastRemove id => rfl
  | submitDone orig => exact absurd rfl (h orig)

theorem fire_filter (s : Page) (cb : Callback) :
    (fire s cb).timers.filter isSubmitDone = s.timers.filter isSubmitDone := by
  cases cb <;> simp [fire, setTimeout, showToast, isSubmitDone]

theorem lifecycle_tick (label : String) (s : Page) (h : Lifecycle label s) :
    Lifecycle label (tick s) := by
  unfold tick
  cases he : earliest s.timers with
  | none => exact h
  | some t =>
    have hmem := earliest_mem _ _ he
    simp only
    by_cases hsd : isSubmitDone t = true
    · have hmemf : t ∈ s.timers.filter isSubmitDone := List.mem_filter.mpr ⟨hmem, hsd⟩
      rcases h with ⟨hf, _⟩ | ⟨due, hf, hb⟩
      · simp [hf] at hmemf
      · rw [hf, List.mem_singleton] at hmemf
        subst hmemf
        left
        refine ⟨?_, ?_⟩
        · rw [fire_filter]
          simp only [filter_erase, hf]
          simp
        · simp [fire, showToast, setTimeout, hb]
    · have hcb : ∀ orig, t.callback ≠ .submitDone orig := by
        intro orig hc
        apply hsd
        simp [isSubmitDone, hc]
      have hnot : t ∉ s.timers.filter isSubmitDone := fun hm => hsd (List.mem_filter.mp hm).2
      have hfil : ((s.timers.erase t).filter isSubmitDone) = s.timers.filter isSubmitDone := by
        rw [filter_erase, List.erase_of_not_mem hnot]
      unfold Lifecycle at h ⊢
      rw [fire_filter, fire_submitBtn_of_toast _ _ hcb]
      simp only [hfil]
      exact h

theorem lifecycle_onSubmit (label : String) (s : Page) (h : Lifecycle label s)
    (hen : s.submitBtn = some ⟨label, false⟩) (hidle : s.timers.filter isSubmitDone = []) :
    Lifecycle label (onSubmit s) := by
  cases hv : (validateForm s.parents).1 with
  | false =>
    rw [onSubmit_invalid s hv]
    exact h
  | true =>
    rw [onSubmit_valid s ⟨label, false⟩ hen hv]
    right
    exact ⟨s.now + 2000, by simp [hidle, isSubmitDone], rfl⟩

theorem lifecycle_step (label : String) (s : Page) (e : Event) (h : Lifecycle label s)
    (he : e ≠ .submit) : Lifecycle label (step s e) := by
  cases e with
  | pressSubmit =>
    simp only [step]
    rcases h with ⟨hf, hb⟩ | ⟨due, hf, hb⟩
    · simp only [hb, Bool.false_eq_true, if_false]
      exact lifecycle_onSubmit label s (Or.inl ⟨hf, hb⟩) hb hf
    · simp only [hb, if_true]
      exact Or.inr ⟨due, hf, hb⟩
  | submit => exact absurd rfl he
  | edit a v => exact h
  | blur a => exact h
  | notify m ty du =>
    have hf : (showToast s m ty du).timers.filter isSubmitDone =
        s.timers.filter isSubmitDone := by
      simp [showToast, setTimeout, isSubmitDone]
    have hb : (showToast s m ty du).submitBtn = s.submitBtn := rfl
    unfold Lifecycle at h ⊢
    simp only [step, hf, hb]
    exact h
  | timer => exact lifecycle_tick label s h
  | wait ms => exact h

theorem lifecycle_run (label : String) (es : List Event) :
    ∀ s : Page, Lifecycle label s → Event.submit ∉ es → Lifecycle label (run s es) := by
  induction es with
  | nil => intro s h _; exact h
  | cons e es ih =>
    intro s h hes
    simp only [List.mem_cons, not_or] at hes
    exact ih (step s e) (lifecycle_step label s e h (fun hc => hes.1 hc.symm)) hes.2

theorem queueWeight_erase (l : List Timer) (t : Timer) (h : t ∈ l) :
    queueWeight (l.erase t) + callbackWeight t.callback = queueWeight l := by
  induction l with
  | nil => simp at h
  | cons a l ih =>
    by_cases hat : a = t
    · subst hat
      simp [queueWeight, Nat.add_comm]
    · have hne : (a == t) = false := by simpa using hat
      have hl : t ∈ l := by
        rcases List.mem_cons.mp h with h | h
        · exact absurd h.symm hat
        · exact h
      have := ih hl
      simp only [queueWeight, List.erase_cons, hne, Bool.false_eq_true, if_false, List.map_cons,
        List.sum_cons] at this ⊢
      omega

theorem queueWeight_fire (s : Page) (cb : Callback) :
    queueWeight (fire s cb).timers + 1 = queueWeight s.timers + callbackWeight cb := by
  cases cb <;> simp [fire, setTimeout, showToast, queueWeight, callbackWeight]

theorem queueWeight_tick (s : Page) (h : s.timers ≠ []) :
    queueWeight (tick s).timers + 1 = queueWeight s.timers := by
  unfold tick
  cases he : earliest s.timers with
  | none => exact absurd (earliest_eq_none _ he) h
  | some t =>
    have h1 := queueWeight_erase s.timers t (earliest_mem _ _ he)
    have h2 := queueWeight_fire { s with now := max s.now t.due, timers := s.timers.erase t }
      t.callback
    simp only at h2 ⊢
    omega

theorem queueWeight_eq_zero (l : List Timer) (h : queueWeight l = 0) : l = [] := by
  cases l with
  | nil => rfl
  | cons a l =>
    have : 0 < callbackWeight a.callback := by cases a.callback <;> simp [callbackWeight]
    simp only [queueWeight, List.map_cons, List.sum_cons] at h
    omega

theorem run_timers_dry (n : Nat) :
    ∀ s : Page, queueWeight s.timers = n → (run s (List.replicate n .timer)).timers = [] := by
  induction n with
  | zero => intro s h; exact queueWeight_eq_zero _ h
  | succ n ih =>
    intro s h
    have hne : s.timers ≠ [] := by
      intro hc
      simp [hc, queueWeight] at h
    have := queueWeight_tick s hne
    simp only [List.replicate_succ, run, List.foldl_cons, step]
    exact ih (tick s) (by omega)

theorem run_append (s : Page) (es fs : List Event) : run s (es ++ fs) = run (run s es) fs := by
  simp [run, List.foldl_append]

/-- C9 (amended): starting from a page whose submit button is enabled and has no
lifecycle in progress, after every sequence of events in which a submit event
is raised only through the submit button (which the browser does only while
the button is enabled), at most one lifecycle is in progress; with none in
progress the button is enabled with its starting label; a pending completion
has captured that starting label and the button then is disabled and reads
"Sending..."; and once the pending timers have fired the button is enabled
with its starting label. -/
theorem single_lifecycle (s0 : Page) (label : String) (es : List Event)
    (hbtn : s0.submitBtn = some ⟨label, false⟩) (hidle : pendingSubmissions s0 = 0)
    (hev : Event.submit ∉ es) :
    pendingSubmissions (run s0 es) ≤ 1 ∧
    (pendingSubmissions (run s0 es) = 0 → (run s0 es).submitBtn = some ⟨label, false⟩) ∧
    (∀ t ∈ (run s0 es).timers, ∀ orig, t.callback = .submitDone orig →
      orig = label ∧ (run s0 es).submitBtn = some ⟨"Sending...", true⟩) ∧
    (run s0 (es ++ List.replicate (queueWeight (run s0 es).timers) .timer)).submitBtn =
      some ⟨label, false⟩ := by
  have h0 : Lifecycle label s0 := by
    left
    exact ⟨List.length_eq_zero.mp hidle, hbtn⟩
  have h := lifecycle_run label es s0 h0 hev
  refine ⟨?_, ?_, ?_, ?_⟩
  · rcases h with ⟨hf, _⟩ | ⟨due, hf, _⟩ <;> simp [pendingSubmissions, hf]
  · intro hp
    rcases h with ⟨_, hb⟩ | ⟨due, hf, _⟩
    · exact hb
    · simp [pendingSubmissions, hf] at hp
  · intro t ht orig hcb
    have hm : t ∈ (run s0 es).timers.filter isSubmitDone :=
      List.mem_filter.mpr ⟨ht, by simp [isSubmitDone, hcb]⟩
    rcases h with ⟨hf, _⟩ | ⟨due, hf, hb⟩
    · simp [hf] at hm
    · rw [hf, List.mem_singleton] at hm
      subst hm
      simp only [Callback.submitDone.injEq] at hcb
      exact ⟨hcb.symm, hb⟩
  · have hev2 : Event.submit ∉ es ++ List.replicate (queueWeight (run s0 es).timers) .timer := by
      simp only [List.mem_append, List.mem_replicate, not_or]
      exact ⟨hev, fun hc => by simp at hc⟩
    have h2 := lifecycle_run label _ s0 h0 hev2
    have hdry := run_timers_dry _ (run s0 es) rfl
    rw [← run_append] at hdry
    rcases h2 with ⟨_, hb⟩ | ⟨due, hf, _⟩
    · exact hb
    · simp [hdry] at hf

/-- Witness of C9: pressing the submit button twice starts one lifecycle. -/
theorem single_lifecycle_witness :
    contactPage.submitBtn = some ⟨"Send", false⟩ ∧ pendingSubmissions contactPage = 0 ∧
    Event.submit ∉ [Event.pressSubmit, Event.pressSubmit] ∧
    pendingSubmissions (run contactPage [.pressSubmit, .pressSubmit]) ≤ 1 :=
  ⟨rfl, by decide, by decide,
    (single_lifecycle contactPage "Send" [.pressSubmit, .pressSubmit] rfl (by decide)
      (by decide)).1⟩

/-- Counterexample to C9 as stated: two submit events reaching the listener while
the first lifecycle is pending start a second one, which captures
"Sending..." as the original label; after both completions the button reads
"Sending...". -/
theorem single_lifecycle_counterexample :
    (run contactPage [.submit, .submit]).timers =
      [⟨2000, .submitDone "Send"⟩, ⟨2000, .submitDone "Sending..."⟩] ∧
    pendingSubmissions (run contactPage [.submit, .submit]) = 2 ∧
    (run contactPage [.submit, .submit, .timer, .timer]).submitBtn =
      some ⟨"Sending...", false⟩ := by
  decide

/-! ## Toasts -/

theorem map_mark_append_fresh (l : List Toast) (t : Toast) (b : Bool)
    (h : ∀ u ∈ l, u.id ≠ t.id) :
    (l ++ [t]).map (fun u => if u.id = t.id then { u with shown := b } else u) =
      l ++ [{ t with shown := b }] := by
  simp only [List.map_append, List.map_cons, List.map_nil, if_true]
  congr 1
  conv_rhs => rw [← List.map_id l]
  apply List.map_congr_left
  intro u hu
  simp [h u hu]

theorem filter_append_fresh (l : List Toast) (t : Toast) (h : ∀ u ∈ l, u.id ≠ t.id) :
    (l ++ [t]).filter (fun u => decide (u.id ≠ t.id)) = l := by
  simp only [List.filter_append, List.filter_cons, List.filter_nil, ne_eq, not_true_eq_false,
    decide_False, Bool.false_eq_true, if_false, List.append_nil]
  apply List.filter_eq_self.mpr
  intro u hu
  simpa using h u hu

theorem earliest_split (l : List Timer) (t : Timer) (h : earliest l = some t) :
    ∃ l1 l2, l = l1 ++ t :: l2 ∧ ∀ u ∈ l1, t.due < u.due := by
  induction l generalizing t with
  | nil => simp [earliest] at h
  | cons a l ih =>
    simp only [earliest] at h
    cases he : earliest l with
    | none =>
      simp only [he, Option.some.injEq] at h
      subst h
      exact ⟨[], l, rfl, by simp⟩
    | some u =>
      simp only [he] at h
      by_cases hd : a.due ≤ u.due
      · simp only [hd, if_true, Option.some.injEq] at h
        subst h
        exact ⟨[], l, rfl, by simp⟩
      · simp only [hd, if_false, Option.some.injEq] at h
        subst h
        obtain ⟨l1, l2, rfl, hl1⟩ := ih u he
        refine ⟨a :: l1, l2, rfl, ?_⟩
        intro v hv
        rcases List.mem_cons.mp hv with rfl | hv
        · omega
        · exact hl1 v hv

theorem toastStage_frame (t0 d : Nat) (toast : Toast) (n : Nat) (s s' : Page)
    (h : ToastStage t0 d toast n s)
    (he : toastElems toast.id s' = toastElems toast.id s)
    (ht : toastTimers toast.id s' = toastTimers toast.id s)
    (hn : s.nextId ≤ s'.nextId) (hnow : s.now ≤ s'.now) :
    ToastStage t0 d toast n s' := by
  obtain ⟨hid, h⟩ := h
  refine ⟨by omega, ?_⟩
  match n, h with
  | 0, h => exact ⟨he ▸ h.1, ht ▸ h.2⟩
  | 1, h => exact ⟨he ▸ h.1, ht ▸ h.2.1, le_trans h.2.2 hnow⟩
  | 2, h => exact ⟨he ▸ h.1, ht ▸ h.2.1, le_trans h.2.2 hnow⟩
  | _ + 3, h => exact ⟨he ▸ h.1, ht ▸ h.2.1, le_trans h.2.2 hnow⟩

theorem onSubmit_toast (id : Nat) (s : Page) :
    toastElems id (onSubmit s) = toastElems id s ∧
    toastTimers id (onSubmit s) = toastTimers id s ∧
    (onSubmit s).nextId = s.nextId ∧ (onSubmit s).now = s.now := by
  cases hv : (validateForm s.parents).1 with
  | false =>
    rw [onSubmit_invalid s hv]
    exact ⟨rfl, rfl, rfl, rfl⟩
  | true =>
    cases hb : s.submitBtn with
    | none =>
      have : onSubmit s = { s with parents := (validateForm s.parents).2 } := by
        simp [onSubmit, hv, handleFormSubmission, hb]
      rw [this]
      exact ⟨rfl, rfl, rfl, rfl⟩
    | some b =>
      rw [onSubmit_valid s b hb hv]
      refine ⟨rfl, ?_, rfl, rfl⟩
      simp [toastTimers, isOfToast]

theorem filter_id_map_mark (l : List Toast) (i id : Nat) (b : Bool) :
    (l.map (fun u => if u.id = i then { u with shown := b } else u)).filter
        (fun u => u.id == id) =
      if i = id then (l.filter (fun u => u.id == id)).map (fun u => { u with shown := b })
      else l.filter (fun u => u.id == id) := by
  have hcomp : ((fun u : Toast => u.id == id) ∘
      (fun u : Toast => if u.id = i then { u with shown := b } else u)) =
      (fun u : Toast => u.id == id) := by
    funext u
    by_cases hu : u.id = i <;> simp [hu]
  rw [List.filter_map, hcomp]
  by_cases hi : i = id
  · simp only [hi, if_true]
    apply List.map_congr_left
    intro u hu
    have : u.id = id := by simpa using (List.mem_filter.mp hu).2
    simp [this]
  · simp only [hi, if_false]
    conv_rhs => rw [← List.map_id (l.filter (fun u => u.id == id))]
    apply List.map_congr_left
    intro u hu
    have : u.id = id := by simpa using (List.mem_filter.mp hu).2
    have hne : ¬ u.id = i := fun h => hi (h ▸ this)
    simp [hne]

theorem filter_id_filter_ne (l : List Toast) (i id : Nat) :
    (l.filter (fun u => decide (u.id ≠ i))).filter (fun u => u.id == id) =
      if i = id then [] else l.filter (fun u => u.id == id) := by
  rw [List.filter_filter]
  by_cases hi : i = id
  · simp only [hi, if_true]
    apply List.filter_eq_nil_iff.mpr
    intro u _
    by_cases hu : u.id = id <;> simp [hu]
  · simp only [hi, if_false]
    apply List.filter_congr
    intro u _
    by_cases hu : u.id = id
    · have hne : ¬ id = i := fun h => hi h.symm
      simp [hu, hne]
    · simp [hu]

theorem fire_other (id : Nat) (s : Page) (t : Timer) (hid : id < s.nextId)
    (ht : isOfToast id t = false) :
    toastElems id (fire s t.callback) = toastElems id s ∧
    toastTimers id (fire s t.callback) = toastTimers id s ∧
    s.nextId ≤ (fire s t.callback).nextId ∧ (fire s t.callback).now = s.now := by
  obtain ⟨due, cb⟩ := t
  cases cb with
  | toastShow i =>
    have hi : ¬ i = id := by simpa [isOfToast] using ht
    refine ⟨?_, rfl, le_refl _, rfl⟩
    simp only [toastElems, fire, filter_id_map_mark, hi, if_false]
  | toastHide i =>
    have hi : ¬ i = id := by simpa [isOfToast] using ht
    refine ⟨?_, ?_, le_refl _, rfl⟩
    · simp only [toastElems, fire, setTimeout, filter_id_map_mark, hi, if_false]
    · simp [toastTimers, fire, setTimeout, isOfToast, hi]
  | toastRemove i =>
    have hi : ¬ i = id := by simpa [isOfToast] using ht
    refine ⟨?_, rfl, le_refl _, rfl⟩
    simp only [toastElems, fire, filter_id_filter_ne, hi, if_false]
  | submitDone orig =>
    have hne : ¬ s.nextId = id := by omega
    refine ⟨?_, ?_, ?_, rfl⟩
    · simp [toastElems, fire, showToast, setTimeout, hne]
    · simp [toastTimers, fire, showToast, setTimeout, isOfToast, hne]
    · simp [fire, showToast, setTimeout]

theorem toastStage_tick (t0 d : Nat) (toast : Toast) (hd : 100 ≤ d)
    (n : Nat) (s : Page) (h : ToastStage t0 d toast n s) :
    ToastStage t0 d toast n (tick s) ∨ (n < 3 ∧ ToastStage t0 d toast (n + 1) (tick s)) := by
  unfold tick
  cases he : earliest s.timers with
  | none => exact Or.inl h
  | some t =>
    simp only
    have hmem := earliest_mem _ _ he
    have hidlt : toast.id < s.nextId := h.1
    by_cases hof : isOfToast toast.id t = true
    · -- one of the callbacks of the toast itself
      have hmemf : t ∈ toastTimers toast.id s := List.mem_filter.mpr ⟨hmem, hof⟩
      have herase : ∀ s1 : Page, s1.timers = s.timers.erase t →
          toastTimers toast.id s1 = (toastTimers toast.id s).erase t := by
        intro s1 h1
        simp only [toastTimers, h1, filter_erase]
      right
      obtain ⟨hid, h⟩ := h
      match n, h with
      | 0, h =>
        obtain ⟨hel, htm⟩ := h
        rw [htm] at hmemf
        have hshow : t = ⟨t0 + 100, .toastShow toast.id⟩ := by
          rcases List.mem_cons.mp hmemf with h1 | h1
          · exact h1
          · rw [List.mem_singleton] at h1
            exfalso
            obtain ⟨l1, l2, hl, hlt⟩ := earliest_split _ _ he
            have hfil : (l1.filter (isOfToast toast.id)) ++
                (t :: l2.filter (isOfToast toast.id)) =
                [⟨t0 + 100, .toastShow toast.id⟩, ⟨t0 + d, .toastHide toast.id⟩] := by
              have := htm
              simp only [toastTimers, hl, List.filter_append, List.filter_cons, hof,
                if_true] at this
              exact this
            cases hf1 : l1.filter (isOfToast toast.id) with
            | nil =>
              rw [hf1, h1] at hfil
              simp at hfil
            | cons a rest =>
              rw [hf1] at hfil
              simp only [List.cons_append, List.cons.injEq] at hfil
              have ha : a ∈ l1 := by
                have : a ∈ l1.filter (isOfToast toast.id) := by simp [hf1]
                exact (List.mem_filter.mp this).1
              have := hlt a ha
              rw [hfil.1, h1] at this
              simp only at this
              omega
        subst hshow
        refine ⟨by omega, hid, ?_, ?_, ?_⟩
        · simp only [toastElems, fire, filter_id_map_mark, if_true]
          simp only [toastElems] at hel
          rw [hel]
          rfl
        · have := herase { s with now := max s.now (t0 + 100), timers := s.timers.erase _ } rfl
          simp only [toastTimers, fire] at this ⊢
          rw [this]
          simp only [toastTimers] at htm
          rw [htm]
          simp
        · simp only [fire]
          omega
      | 1, h =>
        obtain ⟨hel, htm, hnow⟩ := h
        rw [htm, List.mem_singleton] at hmemf
        subst hmemf
        refine ⟨by omega, hid, ?_, ?_, ?_⟩
        · simp only [toastElems, fire, setTimeout, filter_id_map_mark, if_true]
          simp only [toastElems] at hel
          rw [hel]
          rfl
        · refine ⟨max s.now (t0 + d) + 300, by omega, ?_⟩
          have := herase { s with now := max s.now (t0 + d), timers := s.timers.erase _ } rfl
          simp only [toastTimers] at this htm
          simp only [toastTimers, fire, setTimeout, List.filter_append, this, htm]
          simp [isOfToast]
        · simp only [fire, setTimeout]
          omega
      | 2, h =>
        obtain ⟨hel, ⟨due, hdue, htm⟩, hnow⟩ := h
        rw [htm, List.mem_singleton] at hmemf
        subst hmemf
        refine ⟨by omega, hid, ?_, ?_, ?_⟩
        · simp only [toastElems, fire, filter_id_filter_ne, if_true]
        · have := herase { s with now := max s.now due, timers := s.timers.erase _ } rfl
          simp only [toastTimers] at this htm
          simp only [toastTimers, fire, this, htm]
          simp
        · simp only [fire]
          omega
      | _ + 3, h =>
        rw [h.2.1] at hmemf
        simp at hmemf
    · -- a callback of something else
      have hof : isOfToast toast.id t = false := by simpa using hof
      left
      have hnot : t ∉ toastTimers toast.id s := fun hm => by
        have := (List.mem_filter.mp hm).2
        rw [hof] at this
        exact Bool.false_ne_true this
      have hmid : ToastStage t0 d toast n
          { s with now := max s.now t.due, timers := s.timers.erase t } := by
        refine toastStage_frame t0 d toast n s _ h rfl ?_ (le_refl _) (le_max_left _ _)
        simp only [toastTimers, filter_erase]
        exact List.erase_of_not_mem hnot
      obtain ⟨f1, f2, f3, f4⟩ := fire_other toast.id
        { s with now := max s.now t.due, timers := s.timers.erase t } t hidlt hof
      exact toastStage_frame t0 d toast n _ _ hmid f1 f2 f3 (le_of_eq f4.symm)

theorem toastStage_step (t0 d : Nat) (toast : Toast) (hd : 100 ≤ d)
    (n : Nat) (s : Page) (e : Event) (h : ToastStage t0 d toast n s) :
    ToastStage t0 d toast n (step s e) ∨ (n < 3 ∧ ToastStage t0 d toast (n + 1) (step s e)) := by
  cases e with
  | pressSubmit =>
    left
    simp only [step]
    cases hb : s.submitBtn with
    | none => exact h
    | some b =>
      by_cases hdis : b.disabled = true
      · simpa [hdis] using h
      · simp only [hdis, Bool.false_eq_true, if_false]
        obtain ⟨f1, f2, f3, f4⟩ := onSubmit_toast toast.id s
        exact toastStage_frame t0 d toast n s _ h f1 f2 (le_of_eq f3.symm) (le_of_eq f4.symm)
  | submit =>
    left
    obtain ⟨f1, f2, f3, f4⟩ := onSubmit_toast toast.id s
    exact toastStage_frame t0 d toast n s _ h f1 f2 (le_of_eq f3.symm) (le_of_eq f4.symm)
  | edit a v => exact Or.inl (toastStage_frame t0 d toast n s _ h rfl rfl (le_refl _) (le_refl _))
  | blur a => exact Or.inl (toastStage_frame t0 d toast n s _ h rfl rfl (le_refl _) (le_refl _))
  | notify m ty du =>
    left
    have hne : ¬ s.nextId = toast.id := by
      have := h.1
      omega
    refine toastStage_frame t0 d toast n s _ h ?_ ?_ ?_ (le_refl _)
    · simp [step, toastElems, showToast, setTimeout, hne]
    · simp [step, toastTimers, showToast, setTimeout, isOfToast, hne]
    · simp [step, showToast, setTimeout]
  | timer => exact toastStage_tick t0 d toast hd n s h
  | wait ms =>
    exact Or.inl (toastStage_frame t0 d toast n s _ h rfl rfl (le_refl _) (Nat.le_add_right _ _))

theorem toastStage_showToast (s : Page) (message : String) (type : Option String)
    (duration : Option Nat) (hfresh : ∀ t ∈ s.toastContainer, t.id ≠ s.nextId)
    (hfreshT : ∀ t ∈ s.timers, isOfToast s.nextId t = false) :
    ToastStage s.now (duration.getD 3000)
      ⟨s.nextId, "toast toast-" ++ type.getD "info", message, false⟩ 0
      (showToast s message type duration) := by
  refine ⟨by simp [showToast, setTimeout], ?_, ?_⟩
  · have h1 : s.toastContainer.filter (fun u => u.id == s.nextId) = [] := by
      apply List.filter_eq_nil_iff.mpr
      intro u hu
      simpa using hfresh u hu
    simp [toastElems, showToast, setTimeout, h1]
  · have h2 : s.timers.filter (isOfToast s.nextId) = [] := by
      apply List.filter_eq_nil_iff.mpr
      intro u hu
      simp [hfreshT u hu]
    simp [toastTimers, showToast, setTimeout, h2, isOfToast]

/-- C10 (amended): for every message, type (default `info`) and duration of at
least 100 ms (default 3000), `showToast` adds exactly one toast with that
message and type to the container and schedules its appearance 100 ms and its
disappearance `duration` ms after the call, leaving the other toasts and
timers as they are. With no other timer pending the toast is marked shown at
100 ms, unmarked at `duration` ms (shown for `duration - 100` ms) and removed
300 ms later. Whatever else happens on the page (other toasts appearing, their
timers firing, submissions, edits, time passing), the toast goes through its
stages in order, one at a time: in the container and not shown; shown, not
before 100 ms; no longer shown, not before `duration` ms, with its removal due
300 ms after that; removed. The identity of the created element is assumed
new to the container and to the pending callbacks. -/
theorem showToast_lifecycle (s : Page) (message : String) (type : Option String)
    (duration : Option Nat) (hd : 100 ≤ duration.getD 3000)
    (hfresh : ∀ t ∈ s.toastContainer, t.id ≠ s.nextId)
    (hfreshT : ∀ t ∈ s.timers, isOfToast s.nextId t = false) :
    showToast s message type duration =
      { s with
        toastContainer := s.toastContainer ++
          [⟨s.nextId, "toast toast-" ++ type.getD "info", message, false⟩]
        nextId := s.nextId + 1
        timers := s.timers ++ [⟨s.now + 100, .toastShow s.nextId⟩,
          ⟨s.now + duration.getD 3000, .toastHide s.nextId⟩] } ∧
    (s.timers = [] →
      tick (showToast s message type duration) =
        { s with
          now := s.now + 100
          toastContainer := s.toastContainer ++
            [⟨s.nextId, "toast toast-" ++ type.getD "info", message, true⟩]
          nextId := s.nextId + 1
          timers := [⟨s.now + duration.getD 3000, .toastHide s.nextId⟩] } ∧
      tick (tick (showToast s message type duration)) =
        { s with
          now := s.now + duration.getD 3000
          toastContainer := s.toastContainer ++
            [⟨s.nextId, "toast toast-" ++ type.getD "info", message, false⟩]
          nextId := s.nextId + 1
          timers := [⟨s.now + duration.getD 3000 + 300, .toastRemove s.nextId⟩] } ∧
      tick (tick (tick (showToast s message type duration))) =
        { s with
          now := s.now + duration.getD 3000 + 300
          nextId := s.nextId + 1
          timers := [] }) ∧
    ToastStage s.now (duration.getD 3000)
      ⟨s.nextId, "toast toast-" ++ type.getD "info", message, false⟩ 0
      (showToast s message type duration) ∧
    (∀ (n : Nat) (s' : Page) (e : Event),
      ToastStage s.now (duration.getD 3000)
        ⟨s.nextId, "toast toast-" ++ type.getD "info", message, false⟩ n s' →
      ToastStage s.now (duration.getD 3000)
        ⟨s.nextId, "toast toast-" ++ type.getD "info", message, false⟩ n (step s' e) ∨
      (n < 3 ∧ ToastStage s.now (duration.getD 3000)
        ⟨s.nextId, "toast toast-" ++ type.getD "info", message, false⟩ (n + 1) (step s' e))) := by
  have h1 : showToast s message type duration =
      { s with
        toastContainer := s.toastContainer ++
          [⟨s.nextId, "toast toast-" ++ type.getD "info", message, false⟩]
        nextId := s.nextId + 1
        timers := s.timers ++ [⟨s.now + 100, .toastShow s.nextId⟩,
          ⟨s.now + duration.getD 3000, .toastHide s.nextId⟩] } := by
    simp [showToast, setTimeout]
  refine ⟨h1, ?_, toastStage_showToast s message type duration hfresh hfreshT, ?_⟩
  · intro hq
    have hm := map_mark_append_fresh s.toastContainer
      ⟨s.nextId, "toast toast-" ++ type.getD "info", message, false⟩ true hfresh
    have hm2 := map_mark_append_fresh s.toastContainer
      ⟨s.nextId, "toast toast-" ++ type.getD "info", message, true⟩ false hfresh
    have hf := filter_append_fresh s.toastContainer
      ⟨s.nextId, "toast toast-" ++ type.getD "info", message, false⟩ hfresh
    simp only at hm hm2 hf
    have t1 : tick (showToast s message type duration) =
        { s with
          now := s.now + 100
          toastContainer := s.toastContainer ++
            [⟨s.nextId, "toast toast-" ++ type.getD "info", message, true⟩]
          nextId := s.nextId + 1
          timers := [⟨s.now + duration.getD 3000, .toastHide s.nextId⟩] } := by
      rw [h1]
      simp [tick, hq, earliest, hd, fire, hm]
    have t2 : tick (tick (showToast s message type duration)) =
        { s with
          now := s.now + duration.getD 3000
          toastContainer := s.toastContainer ++
            [⟨s.nextId, "toast toast-" ++ type.getD "info", message, false⟩]
          nextId := s.nextId + 1
          timers := [⟨s.now + duration.getD 3000 + 300, .toastRemove s.nextId⟩] } := by
      rw [t1]
      have hmax : max (s.now + 100) (s.now + duration.getD 3000) = s.now + duration.getD 3000 := by
        omega
      simp [tick, earliest, fire, hm2, setTimeout, hmax]
    refine ⟨t1, t2, ?_⟩
    rw [t2]
    simp [tick, earliest, fire]
    exact hfresh
  · intro n s' e h
    exact toastStage_step _ _ _ hd n s' e h

/-- Witness of C10: a second toast shown next to one already on display. -/
theorem showToast_lifecycle_witness :
    100 ≤ (none : Option Nat).getD 3000 ∧
    (∀ t ∈ pageWithToast.toastContainer, t.id ≠ pageWithToast.nextId) ∧
    (∀ t ∈ pageWithToast.timers, isOfToast pageWithToast.nextId t = false) ∧
    showToast pageWithToast "Message sent successfully!" (some "success") none =
      { pageWithToast with
        toastContainer := [⟨0, "toast toast-info", "Switched to dark mode", true⟩,
          ⟨1, "toast toast-success", "Message sent successfully!", false⟩]
        nextId := 2
        timers := [⟨3000, .toastHide 0⟩, ⟨600, .toastShow 1⟩, ⟨3500, .toastHide 1⟩] } :=
  ⟨by decide, by decide, by decide,
    ((showToast_lifecycle pageWithToast "Message sent successfully!" (some "success") none
      (by decide) (by decide) (by decide)).1).trans (by decide)⟩

/-- Counterexample to C10 as stated: with a duration of 50 ms the disappearance
callback runs first, at 50 ms, the toast is marked shown only afterwards, at
100 ms, and it is removed at 350 ms while still marked shown. With the default
duration the toast is marked shown at 100 ms and unmarked at 3000 ms, 2900 ms
later. -/
theorem showToast_lifecycle_counterexample :
    tick (showToast blankPage "Saved" none (some 50)) =
      { blankPage with
        now := 50
        toastContainer := [⟨0, "toast toast-info", "Saved", false⟩]
        nextId := 1
        timers := [⟨100, .toastShow 0⟩, ⟨350, .toastRemove 0⟩] } ∧
    tick (tick (showToast blankPage "Saved" none (some 50))) =
      { blankPage with
        now := 100
        toastContainer := [⟨0, "toast toast-info", "Saved", true⟩]
        nextId := 1
        timers := [⟨350, .toastRemove 0⟩] } ∧
    tick (tick (tick (showToast blankPage "Saved" none (some 50)))) =
      { blankPage with now := 350, nextId := 1 } ∧
    (tick (showToast blankPage "Saved" none none)).now = 100 ∧
    (tick (tick (showToast blankPage "Saved" none none))).now = 3000 := by
  decide

/-! ## `Utils.throttle`: leading edge, one invocation per reset -/

namespace Utils

theorem settled_start {σ α : Type} (func : α → σ → Outcome σ) (limit t0 : Nat) (w0 : σ) :
    Settled func limit w0 (start t0 w0 : Throttled σ α) := by
  refine ⟨List.chain'_nil, rfl, Or.inr ⟨rfl, rfl, ?_⟩⟩
  intro t a h
  simp [start] at h

theorem settled_throttle {σ α : Type} (func : α → σ → Outcome σ) (limit : Nat) (w0 : σ)
    (hret : ∀ a w, (func a w).returned = true) (s : Throttled σ α) (args : α)
    (h : Settled func limit w0 s) : Settled func limit w0 (throttle func limit s args) := by
  obtain ⟨hchain, hworld, hflag⟩ := h
  rcases hflag with ⟨hset, _⟩ | ⟨hunset, hres, hlast⟩
  · have : throttle func limit s args = s := by simp [throttle, hset]
    rw [this]
    exact ⟨hchain, hworld, Or.inl ⟨hset, by assumption⟩⟩
  · have hthr : throttle func limit s args =
        { s with
          world := (func args s.world).world
          invoked := s.invoked ++ [(s.now, args)]
          inThrottle := true
          resets := [s.now + limit] } := by
      simp [throttle, hunset, hret, hres]
    rw [hthr]
    refine ⟨?_, ?_, Or.inl ⟨rfl, s.now, args, by simp, rfl, le_refl _⟩⟩
    · refine List.chain'_append.mpr ⟨hchain, List.chain'_singleton _, ?_⟩
      intro x hx y hy
      simp only [List.head?_cons, Option.mem_def, Option.some.injEq] at hy
      subst hy
      exact hlast x.1 x.2 hx
    · simp only [List.foldl_append, List.foldl_cons, List.foldl_nil, ← hworld]

theorem settled_fireReset {σ α : Type} (func : α → σ → Outcome σ) (limit : Nat) (w0 : σ)
    (s : Throttled σ α) (h : Settled func limit w0 s) :
    Settled func limit w0 (fireReset s) := by
  obtain ⟨hchain, hworld, hflag⟩ := h
  rcases hflag with ⟨hset, t, a, hl, hres, hle⟩ | ⟨hunset, hres, hlast⟩
  · have hf : fireReset s =
        { s with now := max s.now (t + limit), resets := [], inThrottle := false } := by
      simp [fireReset, hres, leastDue]
    rw [hf]
    refine ⟨hchain, hworld, Or.inr ⟨rfl, rfl, ?_⟩⟩
    intro t' a' hl'
    simp only [hl, Option.some.injEq, Prod.mk.injEq] at hl'
    obtain ⟨rfl, _⟩ := hl'
    exact le_max_right _ _
  · have hf : fireReset s = s := by simp [fireReset, hres, leastDue]
    rw [hf]
    exact ⟨hchain, hworld, Or.inr ⟨hunset, hres, hlast⟩⟩

theorem settled_react {σ α : Type} (func : α → σ → Outcome σ) (limit : Nat) (w0 : σ)
    (hret : ∀ a w, (func a w).returned = true) (s : Throttled σ α) (e : Happening α)
    (h : Settled func limit w0 s) : Settled func limit w0 (react func limit s e) := by
  cases e with
  | call args => exact settled_throttle func limit w0 hret s args h
  | timer => exact settled_fireReset func limit w0 s h
  | wait ms =>
    obtain ⟨hchain, hworld, hflag⟩ := h
    refine ⟨hchain, hworld, ?_⟩
    rcases hflag with ⟨hset, t, a, hl, hres, hle⟩ | ⟨hunset, hres, hlast⟩
    · exact Or.inl ⟨hset, t, a, hl, hres, Nat.le_add_right_of_le hle⟩
    · exact Or.inr ⟨hunset, hres, fun t a hl => Nat.le_add_right_of_le (hlast t a hl)⟩

theorem settled_play {σ α : Type} (func : α → σ → Outcome σ) (limit : Nat) (w0 : σ)
    (hret : ∀ a w, (func a w).returned = true) (hs : List (Happening α)) :
    ∀ s : Throttled σ α, Settled func limit w0 s → Settled func limit w0 (play func limit s hs) := by
  induction hs with
  | nil => intro s h; exact h
  | cons e hs ih =>
    intro s h
    exact ih _ (settled_react func limit w0 hret s e h)

/-- C11 (amended): for every `func` that returns normally, every limit and
every sequence of calls, timer turns and waits after `throttle(func, limit)`:
the first call runs `func` at once with its own arguments; two invocations of
`func` are at least `limit` ms apart, and the world is that of the recorded
invocations; a call made less than `limit` ms after the latest invocation
finds `inThrottle` set, and a call that finds it set is dropped, leaving
everything as it was; while `inThrottle` is set exactly one reset is pending,
due `limit` ms after the latest invocation, and when it fires it only unsets
`inThrottle`, not before that due time; a call that finds `inThrottle` unset
runs `func` with its arguments at that moment and schedules the next reset;
and a timer turn never runs `func` (no trailing invocation). -/
theorem throttle_leading_edge {σ α : Type} (func : α → σ → Outcome σ) (limit t0 : Nat) (w0 : σ)
    (hret : ∀ a w, (func a w).returned = true) (hs : List (Happening α)) :
    let s := play func limit (start t0 w0) hs
    (∀ args, (throttle func limit (start t0 w0) args).invoked = [(t0, args)]) ∧
    List.Chain' (fun x y => x.1 + limit ≤ y.1) s.invoked ∧
    s.world = s.invoked.foldl (fun w x => (func x.2 w).world) w0 ∧
    (∀ t a, s.invoked.getLast? = some (t, a) → s.now < t + limit → s.inThrottle = true) ∧
    (∀ args, s.inThrottle = true → throttle func limit s args = s) ∧
    (s.inThrottle = true →
      ∃ t a, s.invoked.getLast? = some (t, a) ∧ s.resets = [t + limit] ∧
        fireReset s = { s with now := max s.now (t + limit), resets := [], inThrottle := false }) ∧
    (∀ args, s.inThrottle = false →
      throttle func limit s args =
        { s with
          world := (func args s.world).world
          invoked := s.invoked ++ [(s.now, args)]
          inThrottle := true
          resets := [s.now + limit] }) ∧
    (fireReset s).invoked = s.invoked := by
  intro s
  have hinv : Settled func limit w0 s :=
    settled_play func limit w0 hret hs _ (settled_start func limit t0 w0)
  obtain ⟨hchain, hworld, hflag⟩ := hinv
  refine ⟨?_, hchain, hworld, ?_, ?_, ?_, ?_, ?_⟩
  · intro args
    cases hr : (func args w0).returned <;> simp [throttle, start, hr]
  · intro t a hl hlt
    rcases hflag with ⟨hset, _⟩ | ⟨_, _, hlast⟩
    · exact hset
    · have := hlast t a hl
      omega
  · intro args hset
    simp [throttle, hset]
  · intro hset
    rcases hflag with ⟨_, t, a, hl, hres, _⟩ | ⟨hunset, _⟩
    · exact ⟨t, a, hl, hres, by simp [fireReset, hres, leastDue]⟩
    · rw [hunset] at hset
      exact absurd hset (by decide)
  · intro args hunset
    rcases hflag with ⟨hset, _⟩ | ⟨_, hres, _⟩
    · rw [hunset] at hset
      exact absurd hset (by decide)
    · simp [throttle, hunset, hret, hres]
  · unfold fireReset
    cases leastDue s.resets <;> rfl

/-- Witness of C11: a call, a dropped call 50 ms later, the reset, and a call
that runs `func` again at 100 ms. -/
theorem throttle_leading_edge_witness :
    (∀ a w, (record a w).returned = true) ∧
    List.Chain' (fun x y => x.1 + 100 ≤ y.1)
      (play record 100 (start 0 [])
        [.call "a", .wait 50, .call "b", .timer, .call "c"]).invoked ∧
    (play record 100 (start 0 []) [.call "a", .wait 50, .call "b", .timer, .call "c"]).invoked =
      [(0, "a"), (100, "c")] :=
  ⟨fun _ _ => rfl,
    (throttle_leading_edge record 100 0 [] (fun _ _ => rfl)
      [.call "a", .wait 50, .call "b", .timer, .call "c"]).2.1,
    by decide⟩

/-- Counterexample to C11 as stated: a call made once `limit` ms have elapsed
but before the reset timer has fired is dropped; so is a second call in the
same instant when `limit` is 0; and a `func` that throws is run by two calls in
the same instant, because `inThrottle` is set only after `func` returned. -/
theorem throttle_leading_edge_counterexample :
    (play record 100 (start 0 []) [.call "a", .wait 100, .call "b"]).now = 100 ∧
    (play record 100 (start 0 []) [.call "a", .wait 100, .call "b"]).invoked = [(0, "a")] ∧
    (play record 0 (start 0 []) [.call "a", .call "b"]).invoked = [(0, "a")] ∧
    (play recordAndThrow 100 (start 0 []) [.call "a", .call "b"]).invoked =
      [(0, "a"), (0, "b")] := by
  decide

end Utils

/-! ## The tree of elements: calls of `validateField` in one parent -/

namespace Dom

theorem directFields_append (a b : Dom) :
    directFields (append a b) = directFields a ++ directFields b := by
  induction a with
  | nil => rfl
  | field f next ih => simp [append, directFields, ih]
  | error t next ih => simp [append, directFields, ih]
  | elem kids next _ ih => simp [append, directFields, ih]

theorem errorTexts_append (a b : Dom) :
    errorTexts (append a b) = errorTexts a ++ errorTexts b := by
  induction a with
  | nil => rfl
  | field f next ih => simp [append, errorTexts, ih]
  | error t next ih => simp [append, errorTexts, ih]
  | elem kids next _ ih => simp [append, errorTexts, ih]

theorem count_append (a b : Dom) : count (append a b) = count a + count b := by
  induction a with
  | nil => simp [append, count]
  | field f next ih => simp [append, count, ih]; omega
  | error t next ih => simp [append, count, ih]
  | elem kids next _ ih => simp [append, count, ih]; omega

theorem lone_append (a b : Dom) : lone (append a b) = (lone a && lone b) := by
  induction a with
  | nil => simp [append, lone]
  | field f next ih => simp [append, lone, ih]
  | error t next ih => simp [append, lone, ih]
  | elem kids next _ ih => simp [append, lone, ih, Bool.and_assoc]

theorem removeFirstError_none (d : Dom) (h : removeFirstError d = none) :
    errorTexts d = [] := by
  induction d with
  | nil => rfl
  | field f next ih =>
    simp only [removeFirstError, Option.map_eq_none'] at h
    simp [errorTexts, ih h]
  | error t next _ => simp [removeFirstError] at h
  | elem kids next ihk ihn =>
    simp only [removeFirstError] at h
    cases hk : removeFirstError kids with
    | some k1 => simp [hk] at h
    | none =>
      simp only [hk, Option.map_eq_none'] at h
      simp [errorTexts, ihk hk, ihn h]

theorem removeFirstError_some (d : Dom) :
    ∀ d1, removeFirstError d = some d1 →
      directFields d1 = directFields d ∧ count d1 = count d ∧ lone d1 = lone d ∧
        ∃ t, errorTexts d = t :: errorTexts d1 := by
  induction d with
  | nil => intro d1 h; simp [removeFirstError] at h
  | field f next ih =>
    intro d1 h
    simp only [removeFirstError, Option.map_eq_some'] at h
    obtain ⟨n1, hn, rfl⟩ := h
    obtain ⟨h1, h2, h3, t, h4⟩ := ih n1 hn
    exact ⟨by simp [directFields, h1], by simp [count, h2], by simp [lone, h3],
      t, by simp [errorTexts, h4]⟩
  | error t next ih =>
    intro d1 h
    simp only [removeFirstError, Option.some.injEq] at h
    subst h
    exact ⟨rfl, rfl, rfl, t, rfl⟩
  | elem kids next ihk ihn =>
    intro d1 h
    simp only [removeFirstError] at h
    cases hk : removeFirstError kids with
    | some k1 =>
      simp only [hk, Option.some.injEq] at h
      subst h
      obtain ⟨_, h2, _, t, h4⟩ := ihk k1 hk
      exact ⟨rfl, by simp [count, h2], by simp [lone, h2], t, by simp [errorTexts, h4]⟩
    | none =>
      simp only [hk, Option.map_eq_some'] at h
      obtain ⟨n1, hn, rfl⟩ := h
      obtain ⟨h1, h2, h3, t, h4⟩ := ihn n1 hn
      have hke : errorTexts kids = [] := removeFirstError_none kids hk
      exact ⟨by simp [directFields, h1], by simp [count, h2], by simp [lone, h3],
        t, by simp [errorTexts, h4, hke]⟩


theorem cleared (d : Dom) :
    directFields ((removeFirstError d).getD d) = directFields d ∧
    count ((removeFirstError d).getD d) = count d ∧
    lone ((removeFirstError d).getD d) = lone d ∧
    errorTexts ((removeFirstError d).getD d) = (errorTexts d).tail := by
  cases h : removeFirstError d with
  | none => simp [removeFirstError_none d h]
  | some d1 =>
    obtain ⟨h1, h2, h3, t, h4⟩ := removeFirstError_some d d1 h
    simp [h1, h2, h3, h4]

theorem directField_eq (d : Dom) : ∀ j, directField j d = (directFields d)[j]? := by
  induction d with
  | nil => intro j; simp [directField, directFields]
  | field f next ih =>
    intro j
    cases j with
    | zero => simp [directField, directFields]
    | succ j => simp [directField, directFields, ih]
  | error t next ih => intro j; simp [directField, directFields, ih]
  | elem kids next _ ih => intro j; simp [directField, directFields, ih]

theorem mapDirect_facts (g : Field → Field) (d : Dom) :
    ∀ j, directFields (mapDirect g j d) = (directFields d).modify g j ∧
      count (mapDirect g j d) = count d ∧ lone (mapDirect g j d) = lone d ∧
      errorTexts (mapDirect g j d) = errorTexts d := by
  induction d with
  | nil => intro j; simp [mapDirect, directFields, count, lone, errorTexts]
  | field f next ih =>
    intro j
    cases j with
    | zero => simp [mapDirect, directFields, count, lone, errorTexts]
    | succ j =>
      obtain ⟨h1, h2, h3, h4⟩ := ih j
      simp [mapDirect, directFields, count, lone, errorTexts, h1, h2, h3, h4]
  | error t next ih =>
    intro j
    obtain ⟨h1, h2, h3, h4⟩ := ih j
    simp [mapDirect, directFields, count, lone, errorTexts, h1, h2, h3, h4]
  | elem kids next _ ih =>
    intro j
    obtain ⟨h1, h2, h3, h4⟩ := ih j
    simp [mapDirect, directFields, count, lone, errorTexts, h1, h2, h3, h4]

theorem modify_modify_same {α : Type} (g h : α → α) (l : List α) (j : Nat) :
    (l.modify g j).modify h j = l.modify (h ∘ g) j := by
  induction l generalizing j with
  | nil => cases j <;> rfl
  | cons a l ih =>
    cases j with
    | zero => rfl
    | succ j => simp [List.modify_succ_cons, ih]

theorem modify_eq_set_of_getElem? {α : Type} (g : α → α) (l : List α) (j : Nat) (a : α)
    (h : l[j]? = some a) : l.modify g j = l.set j (g a) := by
  induction l generalizing j with
  | nil => simp at h
  | cons b l ih =>
    cases j with
    | zero =>
      simp only [List.getElem?_cons_zero, Option.some.injEq] at h
      subst h
      rfl
    | succ j =>
      simp only [List.getElem?_cons_succ] at h
      simp [List.modify_succ_cons, ih j h]

theorem validateField_none (ks : Dom) (j : Nat) (h : (directFields ks)[j]? = none) :
    validateField ks j = (true, ks) := by
  simp [validateField, directField_eq, h]

theorem clearError_facts (ks : Dom) (j : Nat) :
    directFields (clearError ks j) =
      (directFields ks).modify (fun f => { f with errorClass := false }) j ∧
    count (clearError ks j) = count ks ∧ lone (clearError ks j) = lone ks ∧
    errorTexts (clearError ks j) = (errorTexts ks).tail := by
  obtain ⟨c1, c2, c3, c4⟩ := cleared ks
  obtain ⟨m1, m2, m3, m4⟩ := mapDirect_facts (fun f => { f with errorClass := false })
    ((removeFirstError ks).getD ks) j
  exact ⟨by rw [clearError, m1, c1], by rw [clearError, m2, c2], by rw [clearError, m3, c3],
    by rw [clearError, m4, c4]⟩

theorem showError_facts (ks : Dom) (j : Nat) (message : String) :
    directFields (showError ks j message) =
      (directFields ks).modify (fun f => { f with errorClass := true }) j ∧
    count (showError ks j message) = count ks ∧ lone (showError ks j message) = lone ks ∧
    errorTexts (showError ks j message) = (errorTexts ks).tail ++ [message] := by
  obtain ⟨c1, c2, c3, c4⟩ := clearError_facts ks j
  obtain ⟨n1, n2, n3, n4⟩ := mapDirect_facts (fun f => { f with errorClass := true })
    (append (clearError ks j) (error message nil)) j
  refine ⟨?_, ?_, ?_, ?_⟩
  · rw [showError, n1, directFields_append, c1]
    simp only [directFields, List.append_nil, modify_modify_same]
    rfl
  · rw [showError, n2, count_append, c2]
    rfl
  · rw [showError, n3, lone_append, c3]
    simp [lone]
  · rw [showError, n4, errorTexts_append, c4]
    rfl

theorem validateField_some (ks : Dom) (j : Nat) (f : Field)
    (h : (directFields ks)[j]? = some f) :
    (validateField ks j).1 = (verdict f).1 ∧
    directFields (validateField ks j).2 = (directFields ks).set j (marked f) ∧
    errorTexts (validateField ks j).2 = errorsAfter (errorTexts ks) f ∧
    count (validateField ks j).2 = count ks ∧
    lone (validateField ks j).2 = lone ks := by
  cases hv : (verdict f).1 with
  | true =>
    have hvf : validateField ks j = (true, clearError ks j) := by
      simp [validateField, directField_eq, h, hv]
    obtain ⟨c1, c2, c3, c4⟩ := clearError_facts ks j
    rw [hvf]
    refine ⟨rfl, ?_, ?_, c2, c3⟩
    · simp only [c1]
      rw [modify_eq_set_of_getElem? _ _ _ f h]
      simp [marked, hv]
    · simp only [c4, errorsAfter, hv, if_true]
  | false =>
    have hvf : validateField ks j = (false, showError ks j (verdict f).2) := by
      simp [validateField, directField_eq, h, hv]
    obtain ⟨c1, c2, c3, c4⟩ := showError_facts ks j (verdict f).2
    rw [hvf]
    refine ⟨rfl, ?_, ?_, c2, c3⟩
    · simp only [c1]
      rw [modify_eq_set_of_getElem? _ _ _ f h]
      simp [marked, hv]
    · simp only [c4, errorsAfter, hv, Bool.false_eq_true, if_false]

end Dom

namespace Dom

theorem runParent_succ (n : Nat) (ks : Dom) :
    runParent (n + 1) ks = (validateField (runParent n ks) n).2 := by
  simp [runParent, List.range'_concat]

theorem runParent_facts (ks : Dom) :
    ∀ n, directFields (runParent n ks) =
        ((directFields ks).take n).map marked ++ (directFields ks).drop n ∧
      errorTexts (runParent n ks) =
        ((directFields ks).take n).foldl errorsAfter (errorTexts ks) ∧
      count (runParent n ks) = count ks ∧ lone (runParent n ks) = lone ks := by
  intro n
  induction n with
  | zero => simp [runParent]
  | succ n ih =>
    obtain ⟨h1, h2, h3, h4⟩ := ih
    rw [runParent_succ]
    by_cases hn : n < (directFields ks).length
    · have hget : (directFields (runParent n ks))[n]? = some ((directFields ks)[n]) := by
        rw [h1, List.getElem?_append_right (by simp [List.length_take])]
        simp [List.length_take, Nat.min_eq_left (le_of_lt hn), hn]
      obtain ⟨_, v2, v3, v4, v5⟩ := validateField_some _ n _ hget
      refine ⟨?_, ?_, by rw [v4, h3], by rw [v5, h4]⟩
      · rw [v2, h1]
        have hlen : (((directFields ks).take n).map marked).length = n := by
          simp [List.length_take, Nat.min_eq_left (le_of_lt hn)]
        have hdrop : (directFields ks).drop n =
            (directFields ks)[n] :: (directFields ks).drop (n + 1) :=
          List.drop_eq_getElem_cons hn
        rw [hdrop]
        have hset := set_append_cons (((directFields ks).take n).map marked)
          ((directFields ks).drop (n + 1)) ((directFields ks)[n]) (marked ((directFields ks)[n]))
        rw [hlen] at hset
        have ht : (directFields ks).take (n + 1) =
            (directFields ks).take n ++ [(directFields ks)[n]] := by
          rw [List.take_succ, List.getElem?_eq_getElem hn]
          rfl
        rw [hset, ht, List.map_append, List.append_assoc]
        rfl
      · have ht : (directFields ks).take (n + 1) =
            (directFields ks).take n ++ [(directFields ks)[n]] := by
          rw [List.take_succ, List.getElem?_eq_getElem hn]
          rfl
        rw [v3, h2, ht, List.foldl_append]
        rfl
    · have hge : (directFields ks).length ≤ n := by omega
      have hnone : (directFields (runParent n ks))[n]? = none := by
        rw [h1]
        apply List.getElem?_eq_none
        simp [List.length_take]
        omega
      rw [validateField_none _ n hnone]
      refine ⟨?_, ?_, h3, h4⟩
      · rw [h1, List.take_of_length_le hge, List.take_of_length_le (by omega),
          List.drop_of_length_le hge, List.drop_of_length_le (by omega)]
      · rw [h2, List.take_of_length_le hge, List.take_of_length_le (by omega)]

theorem runParent_verdict (ks : Dom) (n : Nat) (hn : n < (directFields ks).length) :
    (validateField (runParent n ks) n).1 = (verdict ((directFields ks)[n])).1 := by
  obtain ⟨h1, _, _, _⟩ := runParent_facts ks n
  have hget : (directFields (runParent n ks))[n]? = some ((directFields ks)[n]) := by
    rw [h1, List.getElem?_append_right (by simp [List.length_take])]
    simp [List.length_take, Nat.min_eq_left (le_of_lt hn), hn]
  exact (validateField_some _ n _ hget).1

theorem runParent_of_le (ks : Dom) (n : Nat) (hn : (directFields ks).length ≤ n) :
    runParent n ks = runParent (directFields ks).length ks := by
  induction n with
  | zero =>
    have : (directFields ks).length = 0 := by omega
    rw [this]
  | succ n ih =>
    by_cases h : (directFields ks).length = n + 1
    · rw [h]
    · have hle : (directFields ks).length ≤ n := by omega
      obtain ⟨h1, _, _, _⟩ := runParent_facts ks n
      have hnone : (directFields (runParent n ks))[n]? = none := by
        rw [h1]
        apply List.getElem?_eq_none
        simp [List.length_take]
        omega
      rw [runParent_succ, validateField_none _ n hnone]
      exact ih hle

end Dom

/-! ## The tree of elements: the loop of `validateForm` -/

namespace Dom

theorem find_missing {α : Type} (m : Dom → Nat → α × Dom) (d : Dom) :
    ∀ k j, count d ≤ k → find m k j d = .missing (k - count d) := by
  induction d with
  | nil => intro k j _; rw [find]; simp [count]
  | field f next ih =>
    intro k j h
    cases k with
    | zero => simp [count] at h
    | succ k =>
      simp only [count, Nat.add_le_add_iff_right] at h
      simp [find, ih k (j + 1) h, Found.under, count]
  | error t next ih =>
    intro k j h
    simp only [count] at h
    rw [find, ih k j h]
    simp only [Found.under, count]
  | elem kids next ihk ihn =>
    intro k j h
    simp only [count] at h
    have hk : count kids ≤ k := by omega
    have hn : count next ≤ k - count kids := by omega
    rw [find, ihk k 0 hk]
    simp only [ihn _ j hn, Found.under, count, Nat.sub_sub]

theorem count_of_lone (d : Dom) (h : lone d = true) : count d = (directFields d).length := by
  induction d with
  | nil => rfl
  | field f next ih => simp [lone] at h; simp [count, directFields, ih h]
  | error t next ih => simp [lone] at h; simp [count, directFields, ih h]
  | elem kids next _ ih =>
    simp only [lone, Bool.and_eq_true, beq_iff_eq] at h
    simp [count, directFields, ih h.2, h.1]

theorem fields_of_lone (d : Dom) (h : lone d = true) : fields d = directFields d := by
  induction d with
  | nil => rfl
  | field f next ih => simp [lone] at h; simp [fields, directFields, ih h]
  | error t next ih => simp [lone] at h; simp [fields, directFields, ih h]
  | elem kids next ihk ih =>
    simp only [lone, Bool.and_eq_true, beq_iff_eq] at h
    have hk : fields kids = [] := by
      clear ihk ih
      have : ∀ e : Dom, count e = 0 → fields e = [] := by
        intro e
        induction e with
        | nil => intro _; rfl
        | field f next _ => intro hc; simp [count] at hc
        | error t next ih => intro hc; simp only [count] at hc; simp [fields, ih hc]
        | elem kids next ihk ih =>
          intro hc
          simp only [count] at hc
          simp [fields, ihk (by omega), ih (by omega)]
      exact this kids h.1
    simp [fields, directFields, ih h.2, hk]

theorem length_fields (d : Dom) : (fields d).length = count d := by
  induction d with
  | nil => rfl
  | field f next ih => simp [fields, count, ih]
  | error t next ih => simp [fields, count, ih]
  | elem kids next ihk ih => simp [fields, count, ihk, ih]

theorem find_here {α : Type} (m : Dom → Nat → α × Dom) (d : Dom) :
    ∀ k j, lone d = true → k < count d → find m k j d = .here (j + k) := by
  induction d with
  | nil => intro k j _ h; simp [count] at h
  | field f next ih =>
    intro k j hl h
    simp only [lone] at hl
    cases k with
    | zero => simp [find]
    | succ k =>
      simp only [count, Nat.add_lt_add_iff_right] at h
      simp only [find, ih k (j + 1) hl h, Found.under]
      congr 1
      omega
  | error t next ih =>
    intro k j hl h
    simp only [lone] at hl
    simp only [count] at h
    rw [find, ih k j hl h]
    simp only [Found.under]
  | elem kids next _ ih =>
    intro k j hl h
    simp only [lone, Bool.and_eq_true, beq_iff_eq] at hl
    simp only [count, hl.1, Nat.zero_add] at h
    have hm := find_missing m kids k 0 (by omega)
    rw [hl.1, Nat.sub_zero] at hm
    rw [find, hm]
    simp only [ih k j hl.2 h, Found.under]

theorem directFields_upToIn (d : Dom) : ∀ n, directFields (upToIn n d) = directFields d := by
  induction d with
  | nil => intro n; rfl
  | field f next ih => intro n; simp [upToIn, directFields, ih]
  | error t next ih => intro n; simp [upToIn, directFields, ih]
  | elem kids next _ ih => intro n; simp [upToIn, directFields, ih]

theorem count_upToIn (d : Dom) : ∀ n, count (upToIn n d) = count d := by
  induction d with
  | nil => intro n; rfl
  | field f next ih => intro n; simp [upToIn, count, ih]
  | error t next ih => intro n; simp [upToIn, count, ih]
  | elem kids next ihk ih =>
    intro n
    simp only [upToIn, count, ih]
    split
    · rw [(runParent_facts kids n).2.2.1]
    · rw [ihk]

theorem hasDirect_runParent (ks : Dom) (n : Nat) :
    hasDirect (runParent n ks) = hasDirect ks := by
  have h := (runParent_facts ks n).1
  have hlen : (directFields (runParent n ks)).length = (directFields ks).length := by
    rw [h]
    simp only [List.length_append, List.length_map, List.length_take, List.length_drop]
    omega
  simp only [hasDirect, List.isEmpty_eq_true]
  cases h1 : directFields (runParent n ks) <;> cases h2 : directFields ks <;>
    simp [h1, h2] at hlen ⊢

theorem upToIn_of_le (d : Dom) :
    ∀ n, apartIn d = true → count d ≤ n → upToIn n d = upToIn (count d) d := by
  induction d with
  | nil => intro n _ _; rfl
  | field f next ih =>
    intro n ha hn
    simp only [apartIn] at ha
    simp only [count] at hn
    simp only [upToIn, count]
    rw [ih n ha (by omega), ih (count next + 1) ha (by omega)]
  | error t next ih =>
    intro n ha hn
    simp only [apartIn] at ha
    simp only [count] at hn
    simp only [upToIn, count]
    rw [ih n ha hn]
  | elem kids next ihk ih =>
    intro n ha hn
    simp only [apartIn, Bool.and_eq_true] at ha
    simp only [count] at hn
    simp only [upToIn, count]
    have e2 : upToIn (n - count kids) next = upToIn (count kids + count next - count kids) next := by
      rw [ih (n - count kids) ha.2 (by omega), ih (count kids + count next - count kids) ha.2
        (by omega)]
    rw [e2]
    by_cases hd : hasDirect kids = true
    · simp only [hd, if_true] at ha ⊢
      have hl := count_of_lone kids ha.1
      rw [runParent_of_le kids n (by omega), runParent_of_le kids (count kids + count next)
        (by omega)]
    · simp only [hd, Bool.false_eq_true, if_false] at ha ⊢
      rw [ihk n ha.1 (by omega), ihk (count kids + count next) ha.1 (by omega)]

end Dom

namespace Dom

theorem fields_append (a b : Dom) : fields (append a b) = fields a ++ fields b := by
  induction a with
  | nil => rfl
  | field f next ih => simp [append, fields, ih]
  | error t next ih => simp [append, fields, ih]
  | elem kids next _ ih => simp [append, fields, ih]

theorem before_append (a b : Dom) :
    ∀ j, j < (directFields a).length → before j (append a b) = before j a := by
  induction a with
  | nil => intro j h; simp [directFields] at h
  | field f next ih =>
    intro j h
    cases j with
    | zero => rfl
    | succ j =>
      simp only [directFields, List.length_cons, Nat.add_lt_add_iff_right] at h
      simp [append, before, ih j h]
  | error t next ih => intro j h; simp [append, before, ih j (by simpa [directFields] using h)]
  | elem kids next _ ih =>
    intro j h
    simp [append, before, ih j (by simpa [directFields] using h)]

theorem removeFirstError_fields (d : Dom) :
    ∀ d1, removeFirstError d = some d1 →
      fields d1 = fields d ∧ ∀ j, before j d1 = before j d := by
  induction d with
  | nil => intro d1 h; simp [removeFirstError] at h
  | field f next ih =>
    intro d1 h
    simp only [removeFirstError, Option.map_eq_some'] at h
    obtain ⟨n1, hn, rfl⟩ := h
    obtain ⟨h1, h2⟩ := ih n1 hn
    refine ⟨by simp [fields, h1], ?_⟩
    intro j
    cases j with
    | zero => rfl
    | succ j => simp [before, h2]
  | error t next ih =>
    intro d1 h
    simp only [removeFirstError, Option.some.injEq] at h
    subst h
    exact ⟨rfl, fun j => by simp [before]⟩
  | elem kids next ihk ihn =>
    intro d1 h
    simp only [removeFirstError] at h
    cases hk : removeFirstError kids with
    | some k1 =>
      simp only [hk, Option.some.injEq] at h
      subst h
      obtain ⟨h1, _⟩ := ihk k1 hk
      have hc := (removeFirstError_some kids k1 hk).2.1
      exact ⟨by simp [fields, h1], fun j => by simp [before, hc]⟩
    | none =>
      simp only [hk, Option.map_eq_some'] at h
      obtain ⟨n1, hn, rfl⟩ := h
      obtain ⟨h1, h2⟩ := ihn n1 hn
      exact ⟨by simp [fields, h1], fun j => by simp [before, h2]⟩

theorem cleared_fields (d : Dom) :
    fields ((removeFirstError d).getD d) = fields d ∧
    ∀ j, before j ((removeFirstError d).getD d) = before j d := by
  cases h : removeFirstError d with
  | none => simp
  | some d1 =>
    obtain ⟨h1, h2⟩ := removeFirstError_fields d d1 h
    exact ⟨by simp [h1], fun j => by simp [h2]⟩

theorem mapDirect_fields (g : Field → Field) (d : Dom) :
    ∀ j f, (directFields d)[j]? = some f →
      fields (mapDirect g j d) = (fields d).set (before j d) (g f) ∧
      (fields d)[before j d]? = some f ∧
      ∀ i, before i (mapDirect g j d) = before i d := by
  induction d with
  | nil => intro j f h; simp [directFields] at h
  | field x next ih =>
    intro j f h
    cases j with
    | zero =>
      simp only [directFields, List.getElem?_cons_zero, Option.some.injEq] at h
      subst h
      refine ⟨rfl, by simp [fields, before], ?_⟩
      intro i
      cases i <;> rfl
    | succ j =>
      simp only [directFields, List.getElem?_cons_succ] at h
      obtain ⟨h1, h2, h3⟩ := ih j f h
      refine ⟨by simp [mapDirect, fields, before, h1], by simp [fields, before, h2], ?_⟩
      intro i
      cases i with
      | zero => rfl
      | succ i => simp [mapDirect, before, h3]
  | error t next ih =>
    intro j f h
    obtain ⟨h1, h2, h3⟩ := ih j f (by simpa [directFields] using h)
    exact ⟨by simp [mapDirect, fields, before, h1], by simp [fields, before, h2],
      fun i => by simp [mapDirect, before, h3]⟩
  | elem kids next _ ih =>
    intro j f h
    obtain ⟨h1, h2, h3⟩ := ih j f (by simpa [directFields] using h)
    have hlen := length_fields kids
    refine ⟨?_, ?_, fun i => by simp [mapDirect, before, h3]⟩
    · simp only [mapDirect, fields, before, h1]
      rw [List.set_append_right _ _ (by omega)]
      simp [hlen]
    · simp only [fields, before]
      rw [List.getElem?_append_right (by omega)]
      simpa [hlen] using h2

theorem clearError_fields (ks : Dom) (j : Nat) (f : Field)
    (h : (directFields ks)[j]? = some f) :
    fields (clearError ks j) = (fields ks).set (before j ks) { f with errorClass := false } ∧
    ∀ i, before i (clearError ks j) = before i ks := by
  obtain ⟨c1, c2⟩ := cleared_fields ks
  obtain ⟨m1, _, m3⟩ := mapDirect_fields (fun f => { f with errorClass := false })
    ((removeFirstError ks).getD ks) j f (by rw [(cleared ks).1]; exact h)
  exact ⟨by rw [clearError, m1, c1, c2], fun i => by rw [clearError, m3, c2]⟩

theorem showError_fields (ks : Dom) (j : Nat) (f : Field) (message : String)
    (h : (directFields ks)[j]? = some f) :
    fields (showError ks j message) =
      (fields ks).set (before j ks) { f with errorClass := true } := by
  obtain ⟨c1, c2⟩ := clearError_fields ks j f h
  have hj : j < (directFields ks).length := (List.getElem?_eq_some_iff.mp h).1
  have hd : (directFields (append (clearError ks j) (error message nil)))[j]? =
      some { f with errorClass := false } := by
    rw [directFields_append, (clearError_facts ks j).1]
    simp [directFields, List.getElem?_modify, h]
  have hlen : j < (directFields (clearError ks j)).length := by
    rw [(clearError_facts ks j).1]
    simpa using hj
  obtain ⟨m1, _, _⟩ := mapDirect_fields (fun f => { f with errorClass := true })
    (append (clearError ks j) (error message nil)) j _ hd
  rw [showError, m1, fields_append, before_append _ _ j hlen, c1, c2]
  simp [fields, List.set_set]

theorem validateField_fields (ks : Dom) (j : Nat) (f : Field)
    (h : (directFields ks)[j]? = some f) :
    fields (validateField ks j).2 = (fields ks).set (before j ks) (marked f) ∧
    (fields ks)[before j ks]? = some f := by
  refine ⟨?_, (mapDirect_fields id ks j f h).2.1⟩
  cases hv : (verdict f).1 with
  | true =>
    have hvf : validateField ks j = (true, clearError ks j) := by
      simp [validateField, directField_eq, h, hv]
    rw [hvf, (clearError_fields ks j f h).1]
    simp [marked, hv]
  | false =>
    have hvf : validateField ks j = (false, showError ks j (verdict f).2) := by
      simp [validateField, directField_eq, h, hv]
    rw [hvf, showError_fields ks j f _ h]
    simp [marked, hv]

end Dom

theorem getElem?_map_take_append_drop {α : Type} (g : α → α) (l : List α) :
    ∀ n, ((l.take n).map g ++ l.drop n)[n]? = l[n]? := by
  induction l with
  | nil => intro n; simp
  | cons a l ih =>
    intro n
    cases n with
    | zero => simp
    | succ n => simpa using ih n

theorem set_map_take_append_drop {α : Type} (g : α → α) (l : List α) :
    ∀ n a, l[n]? = some a →
      ((l.take n).map g ++ l.drop n).set n (g a) = (l.take (n + 1)).map g ++ l.drop (n + 1) := by
  induction l with
  | nil => intro n a h; simp at h
  | cons b l ih =>
    intro n a h
    cases n with
    | zero =>
      simp only [List.getElem?_cons_zero, Option.some.injEq] at h
      subst h
      simp
    | succ n =>
      simp only [List.getElem?_cons_succ] at h
      simpa using ih n a h

namespace Dom

theorem find_spec (d : Dom) :
    ∀ k j,
      (∀ k1, find validateField k j d = .missing k1 → count d ≤ k ∧ k1 = k - count d) ∧
      (∀ j1, find validateField k j d = .here j1 →
        j ≤ j1 ∧ before (j1 - j) d = k ∧ ∃ f, (directFields d)[j1 - j]? = some f) ∧
      (∀ r d1, find validateField k j d = .done r d1 →
        ∃ f, (fields d)[k]? = some f ∧ r = (verdict f).1 ∧
          fields d1 = (fields d).set k (marked f) ∧ count d1 = count d) := by
  induction d with
  | nil =>
    intro k j
    refine ⟨?_, ?_, ?_⟩
    · intro k1 h
      simp only [find, Found.missing.injEq] at h
      simp [count, h]
    · intro j1 h; simp [find] at h
    · intro r d1 h; simp [find] at h
  | field x next ih =>
    intro k j
    cases k with
    | zero =>
      refine ⟨?_, ?_, ?_⟩
      · intro k1 h; simp [find] at h
      · intro j1 h
        simp only [find, Found.here.injEq] at h
        subst h
        simp [before, directFields]
      · intro r d1 h; simp [find] at h
    | succ k =>
      obtain ⟨i1, i2, i3⟩ := ih k (j + 1)
      refine ⟨?_, ?_, ?_⟩
      · intro k1 h
        rw [find] at h
        cases hx : find validateField k (j + 1) next with
        | missing k2 =>
          simp only [hx, Found.under, Found.missing.injEq] at h
          obtain ⟨h1, h2⟩ := i1 k2 hx
          simp only [count]
          omega
        | here j2 => simp [hx, Found.under] at h
        | done r2 d2 => simp [hx, Found.under] at h
      · intro j1 h
        rw [find] at h
        cases hx : find validateField k (j + 1) next with
        | missing k2 => simp [hx, Found.under] at h
        | here j2 =>
          simp only [hx, Found.under, Found.here.injEq] at h
          subst h
          obtain ⟨h1, h2, f, h3⟩ := i2 j2 hx
          have hj : j2 - j = (j2 - (j + 1)) + 1 := by omega
          rw [hj]
          exact ⟨by omega, by simp [before, h2], f, by simpa [directFields] using h3⟩
        | done r2 d2 => simp [hx, Found.under] at h
      · intro r d1 h
        rw [find] at h
        cases hx : find validateField k (j + 1) next with
        | missing k2 => simp [hx, Found.under] at h
        | here j2 => simp [hx, Found.under] at h
        | done r2 d2 =>
          simp only [hx, Found.under, Found.done.injEq] at h
          obtain ⟨rfl, rfl⟩ := h
          obtain ⟨f, h1, h2, h3, h4⟩ := i3 r2 d2 hx
          exact ⟨f, by simpa [fields] using h1, h2, by simp [fields, h3], by simp [count, h4]⟩
  | error t next ih =>
    intro k j
    obtain ⟨i1, i2, i3⟩ := ih k j
    refine ⟨?_, ?_, ?_⟩
    · intro k1 h
      rw [find] at h
      cases hx : find validateField k j next with
      | missing k2 =>
        simp only [hx, Found.under, Found.missing.injEq] at h
        obtain ⟨h1, h2⟩ := i1 k2 hx
        simp only [count]
        omega
      | here j2 => simp [hx, Found.under] at h
      | done r2 d2 => simp [hx, Found.under] at h
    · intro j1 h
      rw [find] at h
      cases hx : find validateField k j next with
      | missing k2 => simp [hx, Found.under] at h
      | here j2 =>
        simp only [hx, Found.under, Found.here.injEq] at h
        subst h
        obtain ⟨h1, h2, f, h3⟩ := i2 j2 hx
        exact ⟨h1, by simp [before, h2], f, by simpa [directFields] using h3⟩
      | done r2 d2 => simp [hx, Found.under] at h
    · intro r d1 h
      rw [find] at h
      cases hx : find validateField k j next with
      | missing k2 => simp [hx, Found.under] at h
      | here j2 => simp [hx, Found.under] at h
      | done r2 d2 =>
        simp only [hx, Found.under, Found.done.injEq] at h
        obtain ⟨rfl, rfl⟩ := h
        obtain ⟨f, h1, h2, h3, h4⟩ := i3 r2 d2 hx
        exact ⟨f, by simpa [fields] using h1, h2, by simp [fields, h3], by simp [count, h4]⟩
  | elem kids next ihk ihn =>
    intro k j
    obtain ⟨a1, a2, a3⟩ := ihk k 0
    have hlen := length_fields kids
    cases hx : find validateField k 0 kids with
    | missing k1 =>
      obtain ⟨hk1, hk2⟩ := a1 k1 hx
      obtain ⟨i1, i2, i3⟩ := ihn k1 j
      refine ⟨?_, ?_, ?_⟩
      · intro k3 h
        rw [find, hx] at h
        cases hy : find validateField k1 j next with
        | missing k2 =>
          simp only [hy, Found.under, Found.missing.injEq] at h
          obtain ⟨h1, h2⟩ := i1 k2 hy
          simp only [count]
          omega
        | here j2 => simp [hy, Found.under] at h
        | done r2 d2 => simp [hy, Found.under] at h
      · intro j1 h
        rw [find, hx] at h
        cases hy : find validateField k1 j next with
        | missing k2 => simp [hy, Found.under] at h
        | here j2 =>
          simp only [hy, Found.under, Found.here.injEq] at h
          subst h
          obtain ⟨h1, h2, f, h3⟩ := i2 j2 hy
          refine ⟨h1, ?_, f, by simpa [directFields] using h3⟩
          simp only [before, h2]
          omega
        | done r2 d2 => simp [hy, Found.under] at h
      · intro r d1 h
        rw [find, hx] at h
        cases hy : find validateField k1 j next with
        | missing k2 => simp [hy, Found.under] at h
        | here j2 => simp [hy, Found.under] at h
        | done r2 d2 =>
          simp only [hy, Found.under, Found.done.injEq] at h
          obtain ⟨rfl, rfl⟩ := h
          obtain ⟨f, h1, h2, h3, h4⟩ := i3 r2 d2 hy
          refine ⟨f, ?_, h2, ?_, by simp [count, h4]⟩
          · simp only [fields]
            rw [List.getElem?_append_right (by omega), hlen, ← hk2]
            exact h1
          · simp only [fields, h3]
            rw [List.set_append_right _ _ (by omega), hlen, ← hk2]
    | here j1 =>
      obtain ⟨_, hb, f, hf⟩ := a2 j1 hx
      simp only [Nat.sub_zero] at hb hf
      obtain ⟨v1, _, _, v4, _⟩ := validateField_some kids j1 f hf
      obtain ⟨w1, w2⟩ := validateField_fields kids j1 f hf
      rw [hb] at w1 w2
      have hk : k < (fields kids).length := (List.getElem?_eq_some_iff.mp w2).1
      refine ⟨?_, ?_, ?_⟩
      · intro k3 h; simp [find, hx] at h
      · intro j2 h; simp [find, hx] at h
      · intro r d1 h
        simp only [find, hx, Found.done.injEq] at h
        obtain ⟨rfl, rfl⟩ := h
        refine ⟨f, ?_, v1, ?_, by simp [count, v4]⟩
        · simp only [fields]
          rw [List.getElem?_append_left hk]
          exact w2
        · simp only [fields, w1]
          rw [List.set_append_left _ _ hk]
    | done r2 kids1 =>
      obtain ⟨f, h1, h2, h3, h4⟩ := a3 r2 kids1 hx
      have hk : k < (fields kids).length := (List.getElem?_eq_some_iff.mp h1).1
      refine ⟨?_, ?_, ?_⟩
      · intro k3 h; simp [find, hx] at h
      · intro j2 h; simp [find, hx] at h
      · intro r d1 h
        simp only [find, hx, Found.done.injEq] at h
        obtain ⟨rfl, rfl⟩ := h
        refine ⟨f, ?_, h2, ?_, by simp [count, h4]⟩
        · simp only [fields]
          rw [List.getElem?_append_left hk]
          exact h1
        · simp only [fields, h3]
          rw [List.set_append_left _ _ hk]

theorem atInput_spec (form : Dom) (k : Nat) (h : k < count form) :
    ∃ f, (fields form)[k]? = some f ∧
      (atInput validateField true form k).1 = (verdict f).1 ∧
      fields (atInput validateField true form k).2 = (fields form).set k (marked f) ∧
      count (atInput validateField true form k).2 = count form := by
  obtain ⟨a1, a2, a3⟩ := find_spec form k 0
  cases hx : find validateField k 0 form with
  | missing k1 =>
    have := (a1 k1 hx).1
    omega
  | here j1 =>
    obtain ⟨_, hb, f, hf⟩ := a2 j1 hx
    simp only [Nat.sub_zero] at hb hf
    obtain ⟨v1, _, _, v4, _⟩ := validateField_some form j1 f hf
    obtain ⟨w1, w2⟩ := validateField_fields form j1 f hf
    rw [hb] at w1 w2
    refine ⟨f, w2, ?_, ?_, ?_⟩ <;> simp only [atInput, hx] <;> assumption
  | done r d1 =>
    obtain ⟨f, h1, h2, h3, h4⟩ := a3 r d1 hx
    refine ⟨f, h1, ?_, ?_, ?_⟩ <;> simp only [atInput, hx] <;> assumption

theorem foldl_formStep_fields (form : Dom) :
    ∀ n, n ≤ count form →
      ((List.range' 0 n).foldl formStep (true, form)).1 =
        ((fields form).take n).all (fun f => (verdict f).1) ∧
      fields ((List.range' 0 n).foldl formStep (true, form)).2 =
        ((fields form).take n).map marked ++ (fields form).drop n ∧
      count ((List.range' 0 n).foldl formStep (true, form)).2 = count form := by
  intro n
  induction n with
  | zero => intro _; simp
  | succ n ih =>
    intro h
    obtain ⟨h1, h2, h3⟩ := ih (by omega)
    have hlen : n < (fields form).length := by rw [length_fields]; omega
    obtain ⟨f, s1, s2, s3, s4⟩ :=
      atInput_spec ((List.range' 0 n).foldl formStep (true, form)).2 n (by rw [h3]; omega)
    rw [h2, getElem?_map_take_append_drop] at s1
    have ht : (fields form).take (n + 1) = (fields form).take n ++ [f] := by
      rw [List.take_succ, s1]
      rfl
    rw [List.range'_concat, List.foldl_append]
    simp only [Nat.one_mul, Nat.zero_add, List.foldl_cons, List.foldl_nil, formStep]
    refine ⟨?_, ?_, ?_⟩
    · rw [s2, h1, ht, List.all_append]
      cases hv : (verdict f).1 <;> simp [hv]
    · rw [s3, h2]
      exact set_map_take_append_drop marked (fields form) n f s1
    · rw [s4, h3]

theorem validateForm_fields (form : Dom) :
    (validateForm form).1 = (fields form).all (fun f => (verdict f).1) ∧
    fields (validateForm form).2 = (fields form).map marked := by
  obtain ⟨h1, h2, _⟩ := foldl_formStep_fields form (count form) (le_refl _)
  have hl : (fields form).length ≤ count form := by rw [length_fields]
  rw [List.take_of_length_le hl] at h1 h2
  rw [List.drop_of_length_le hl, List.append_nil] at h2
  exact ⟨h1, h2⟩

end Dom

/-- C4: for every form, given as the tree of its elements with its inputs at
any depth and in any number, `validateForm` returns `true` exactly when every
input of the form is valid (`true` when there is none), valid being what
`validateField` returns for the input whatever its parent element shows; and
`validateForm` does not stop at an invalid input: afterwards every input of
the form, also one that comes after an invalid input, carries the class
`error` exactly when it is invalid. The same holds of the form given by the
list of its parent elements: `validateForm` returns `true` exactly when
`validateField` returns `true` for every input of every parent element, every
input is among those the loop visits, each once, the display left is that of
running `validateField` on each of them in document order, and afterwards
every input carries the class `error` exactly when it is invalid. -/
theorem validateForm_all_fields (form : Dom) (ps : List Parent) :
    ((Dom.validateForm form).1 = true ↔ ∀ f ∈ form.fields, (verdict f).1 = true) ∧
    (∀ (ks : Dom) (j : Nat) (f : Field), Dom.directField j ks = some f →
      (Dom.validateField ks j).1 = (verdict f).1) ∧
    (Dom.validateForm form).2.fields =
      form.fields.map (fun f => { f with errorClass := !(verdict f).1 }) ∧
    ((validateForm ps).1 = true ↔
      ∀ p ∈ ps, ∀ f ∈ p.fields, (validateField ⟨f, p.errors⟩).1 = true) ∧
    (∀ (g i : Nat) (p : Parent) (f : Field), ps[g]? = some p → p.fields[i]? = some f →
      (g, i) ∈ inputs ps) ∧
    (inputs ps).Nodup ∧
    (validateForm ps).2 = (inputs ps).foldl (fun st a => (validateFieldAt st a).2) ps ∧
    (∀ (g i : Nat) (p : Parent) (f : Field), ps[g]? = some p → p.fields[i]? = some f →
      ∃ q, (validateForm ps).2[g]? = some q ∧
        (q.fields[i]?).map (fun x => x.errorClass) =
          some (!(validateField ⟨f, p.errors⟩).1)) := by
  refine ⟨?_, ?_, (Dom.validateForm_fields form).2, ?_, ?_, nodup_inputsFrom ps 0,
    foldl_formStep_snd (inputs ps) true ps, ?_⟩
  · rw [(Dom.validateForm_fields form).1]
    simp
  · intro ks j f h
    exact (Dom.validateField_some ks j f (by rw [← Dom.directField_eq]; exact h)).1
  · simp [validateForm_eq, validateField_eq]
  · intro g i p f hg hi
    exact (mem_inputs_iff ps (g, i)).mpr ⟨f, by simp [fieldAt, hg, hi]⟩
  · intro g i p f hg hi
    refine ⟨validatedParent p, by simp [validateForm_eq, hg], ?_⟩
    simp [validatedParent, hi, marked, validateField_eq]

/-- An instance of C4 on a form whose inputs lie at different depths: a blank
required input, then a wrapper with an ill-formed email address and a
well-formed phone number; both invalid inputs are marked. -/
theorem validateForm_all_fields_witness :
    (Dom.validateForm (.field ⟨"", "text", true, "", false⟩
      (.elem (.elem (.field ⟨"a@b", "email", false, "", false⟩ .nil)
        (.field ⟨"0917 555", "tel", true, "", true⟩ .nil)) .nil))).2.fields =
      [⟨"", "text", true, "", true⟩, ⟨"a@b", "email", false, "", true⟩,
        ⟨"0917 555", "tel", true, "", false⟩] :=
  ((validateForm_all_fields (.field ⟨"", "text", true, "", false⟩
      (.elem (.elem (.field ⟨"a@b", "email", false, "", false⟩ .nil)
        (.field ⟨"0917 555", "tel", true, "", true⟩ .nil)) .nil)) []).2.2.1).trans (by decide)


/-! ## The tree of elements: parents that are not nested -/

namespace Dom

theorem find_upToIn (d : Dom) :
    ∀ n j, hasDirect d = false → apartIn d = true → n < count d →
      find validateField n j (upToIn n d) =
        .done ((((fields d)[n]?).map fun f => (verdict f).1).getD true) (upToIn (n + 1) d) := by
  induction d with
  | nil => intro n j _ _ h; simp [count] at h
  | field f next _ => intro n j hd _ _; simp [hasDirect, directFields] at hd
  | error t next ih =>
    intro n j hd ha h
    have hd1 : hasDirect next = false := by simpa [hasDirect, directFields] using hd
    simp only [apartIn] at ha
    simp only [count] at h
    simp only [upToIn]
    rw [find, ih n j hd1 ha h]
    simp only [Found.under, fields]
  | elem kids next ihk ih =>
    intro n j hd ha h
    have hd1 : hasDirect next = false := by simpa [hasDirect, directFields] using hd
    simp only [apartIn, Bool.and_eq_true] at ha
    simp only [count] at h
    simp only [upToIn, fields]
    by_cases hn : n < count kids
    · -- the input lies below this element
      have e0 : n - count kids = 0 := by omega
      have e1 : n + 1 - count kids = 0 := by omega
      have hget : (fields kids ++ fields next)[n]? = (fields kids)[n]? :=
        List.getElem?_append_left (by rw [length_fields]; exact hn)
      rw [e0, e1, hget]
      by_cases hk : hasDirect kids = true
      · simp only [hk, if_true] at ha ⊢
        have hl : lone (runParent n kids) = true := by rw [(runParent_facts kids n).2.2.2]; exact ha.1
        have hc : n < count (runParent n kids) := by rw [(runParent_facts kids n).2.2.1]; exact hn
        have hlen : n < (directFields kids).length := by rw [← count_of_lone kids ha.1]; exact hn
        rw [find, find_here validateField _ n 0 hl hc]
        simp only [Nat.zero_add]
        rw [runParent_verdict kids n hlen, ← runParent_succ, fields_of_lone kids ha.1,
          List.getElem?_eq_getElem hlen]
        rfl
      · simp only [hk, Bool.false_eq_true, if_false] at ha ⊢
        have hk1 : hasDirect kids = false := by simpa using hk
        rw [find, ihk n 0 hk1 ha.1 hn]
    · -- the input lies further on
      have hn1 : count kids ≤ n := by omega
      have hget : (fields kids ++ fields next)[n]? = (fields next)[n - count kids]? := by
        rw [List.getElem?_append_right (by rw [length_fields]; exact hn1), length_fields]
      have e1 : n + 1 - count kids = n - count kids + 1 := by omega
      rw [hget, e1]
      have hrest := ih (n - count kids) j hd1 ha.2 (by omega)
      by_cases hk : hasDirect kids = true
      · simp only [hk, if_true] at ha ⊢
        have hl := count_of_lone kids ha.1
        have hc : count (runParent n kids) ≤ n := by rw [(runParent_facts kids n).2.2.1]; exact hn1
        rw [find, find_missing validateField _ n 0 hc, (runParent_facts kids n).2.2.1]
        simp only [hrest, Found.under]
        rw [runParent_of_le kids n (by omega), runParent_of_le kids (n + 1) (by omega)]
      · simp only [hk, Bool.false_eq_true, if_false] at ha ⊢
        have hc : count (upToIn n kids) ≤ n := by rw [count_upToIn]; exact hn1
        rw [find, find_missing validateField _ n 0 hc, count_upToIn]
        simp only [hrest, Found.under]
        rw [upToIn_of_le kids n ha.1 hn1, upToIn_of_le kids (n + 1) ha.1 (by omega)]

theorem atInput_upTo (form : Dom) (n : Nat) (ha : apart form = true) (h : n < count form) :
    atInput validateField true (upTo n form) n =
      ((((fields form)[n]?).map fun f => (verdict f).1).getD true, upTo (n + 1) form) := by
  by_cases hd : hasDirect form = true
  · simp only [apart, hd, if_true] at ha
    simp only [upTo, hd, if_true]
    have hl : lone (runParent n form) = true := by rw [(runParent_facts form n).2.2.2]; exact ha
    have hc : n < count (runParent n form) := by rw [(runParent_facts form n).2.2.1]; exact h
    have hlen : n < (directFields form).length := by rw [← count_of_lone form ha]; exact h
    rw [atInput, find_here validateField _ n 0 hl hc]
    simp only [Nat.zero_add]
    rw [runParent_succ, fields_of_lone form ha, List.getElem?_eq_getElem hlen]
    exact Prod.ext (runParent_verdict form n hlen) rfl
  · have hd1 : hasDirect form = false := by simpa using hd
    simp only [apart, hd1, Bool.false_eq_true, if_false] at ha
    simp only [upTo, hd1, Bool.false_eq_true, if_false]
    rw [atInput, find_upToIn form n 0 hd1 ha h]

theorem foldl_formStep_upTo (form : Dom) (ha : apart form = true) :
    ∀ n, n ≤ count form →
      (List.range' 0 n).foldl formStep (true, form) =
        (((fields form).take n).all (fun f => (verdict f).1), upTo n form) := by
  intro n
  induction n with
  | zero =>
    intro _
    have : upTo 0 form = form := by
      have h0 : ∀ d : Dom, upToIn 0 d = d := by
        intro d
        induction d with
        | nil => rfl
        | field f next ih => simp [upToIn, ih]
        | error t next ih => simp [upToIn, ih]
        | elem kids next ihk ih =>
          simp only [upToIn, Nat.zero_sub, ih, ihk]
          split <;> simp [runParent]
      simp only [upTo, h0]
      split <;> simp [runParent]
    simp [this]
  | succ n ih =>
    intro h
    have hlt : n < count form := by omega
    have hlen : n < (fields form).length := by rw [length_fields]; exact hlt
    rw [List.range'_concat, List.foldl_append, ih (by omega)]
    simp only [Nat.one_mul, Nat.zero_add, List.foldl_cons, List.foldl_nil, formStep,
      atInput_upTo form n ha hlt]
    have ht : (fields form).take (n + 1) = (fields form).take n ++ [(fields form)[n]] := by
      rw [List.take_succ, List.getElem?_eq_getElem hlen]
      rfl
    rw [ht, List.getElem?_eq_getElem hlen, List.all_append]
    cases hv : (verdict (fields form)[n]).1 <;> simp [hv]

theorem validateForm_eq_upTo (form : Dom) (ha : apart form = true) :
    validateForm form =
      ((fields form).all (fun f => (verdict f).1), upTo (count form) form) := by
  rw [validateForm, foldl_formStep_upTo form ha (count form) (le_refl _),
    List.take_of_length_le (by rw [length_fields])]

end Dom

namespace Dom

theorem hasDirect_upToIn (d : Dom) (n : Nat) : hasDirect (upToIn n d) = hasDirect d := by
  simp only [hasDirect, directFields_upToIn]

theorem runParent_parent (ks : Dom) (n : Nat) (hl : lone ks = true) (hn : count ks ≤ n) :
    (⟨directFields (runParent n ks), errorTexts (runParent n ks)⟩ : Parent) =
      validatedParent ⟨directFields ks, errorTexts ks⟩ := by
  obtain ⟨h1, h2, _, _⟩ := runParent_facts ks n
  have hlen : (directFields ks).length ≤ n := by rw [← count_of_lone ks hl]; exact hn
  rw [h1, h2, List.take_of_length_le hlen, List.drop_of_length_le hlen, List.append_nil]
  rfl

theorem parentsIn_upToIn (d : Dom) :
    ∀ n, apartIn d = true → count d ≤ n →
      parentsIn (upToIn n d) = (parentsIn d).map validatedParent := by
  induction d with
  | nil => intro n _ _; rfl
  | field f next ih =>
    intro n ha hn
    simp only [apartIn] at ha
    simp only [count] at hn
    simp only [upToIn, parentsIn]
    exact ih n ha (by omega)
  | error t next ih =>
    intro n ha hn
    simp only [apartIn] at ha
    simp only [count] at hn
    simp only [upToIn, parentsIn]
    exact ih n ha hn
  | elem kids next ihk ih =>
    intro n ha hn
    simp only [apartIn, Bool.and_eq_true] at ha
    simp only [count] at hn
    simp only [upToIn, parentsIn, List.map_append]
    rw [ih (n - count kids) ha.2 (by omega)]
    congr 1
    by_cases hk : hasDirect kids = true
    · simp only [hk, if_true, hasDirect_runParent] at ha ⊢
      rw [runParent_parent kids n ha.1 (by omega)]
      rfl
    · simp only [hk, Bool.false_eq_true, if_false, hasDirect_upToIn] at ha ⊢
      exact ihk n ha.1 (by omega)

theorem parents_upTo (form : Dom) (ha : apart form = true) :
    parents (upTo (count form) form) = (parents form).map validatedParent := by
  by_cases hd : hasDirect form = true
  · simp only [apart, hd, if_true] at ha
    simp only [parents, upTo, hd, if_true, hasDirect_runParent]
    rw [runParent_parent form _ ha (le_refl _)]
    rfl
  · simp only [apart, hd, Bool.false_eq_true, if_false] at ha
    simp only [parents, upTo, hd, Bool.false_eq_true, if_false, hasDirect_upToIn]
    exact parentsIn_upToIn form _ ha (le_refl _)

theorem fields_parentsIn (d : Dom) :
    hasDirect d = false → apartIn d = true →
      fields d = ((parentsIn d).map fun p => p.fields).flatten := by
  induction d with
  | nil => intro _ _; rfl
  | field f next _ => intro hd _; simp [hasDirect, directFields] at hd
  | error t next ih =>
    intro hd ha
    have hd1 : hasDirect next = false := by simpa [hasDirect, directFields] using hd
    simp only [apartIn] at ha
    simp only [fields, parentsIn]
    exact ih hd1 ha
  | elem kids next ihk ih =>
    intro hd ha
    have hd1 : hasDirect next = false := by simpa [hasDirect, directFields] using hd
    simp only [apartIn, Bool.and_eq_true] at ha
    simp only [fields, parentsIn, List.map_append, List.flatten_append]
    rw [ih hd1 ha.2]
    congr 1
    by_cases hk : hasDirect kids = true
    · simp only [hk, if_true] at ha ⊢
      simp [fields_of_lone kids ha.1]
    · simp only [hk, Bool.false_eq_true, if_false] at ha ⊢
      exact ihk (by simpa using hk) ha.1

theorem fields_parents (form : Dom) (ha : apart form = true) :
    fields form = ((parents form).map fun p => p.fields).flatten := by
  by_cases hd : hasDirect form = true
  · simp only [apart, hd, if_true] at ha
    simp [parents, hd, fields_of_lone form ha]
  · simp only [apart, hd, Bool.false_eq_true, if_false] at ha
    simp only [parents, hd, Bool.false_eq_true, if_false]
    exact fields_parentsIn form (by simpa using hd) ha

end Dom

theorem foldl_errorsAfter_last (l : List Field) :
    ∀ (errs : List String) (f : Field), errs.length ≤ 1 → l.getLast? = some f →
      l.foldl errorsAfter errs = if (verdict f).1 = true then [] else [(verdict f).2] := by
  induction l with
  | nil => intro errs f _ h; simp at h
  | cons a rest ih =>
    intro errs f he hl
    have ht := tail_eq_nil_of_length_le_one errs he
    have hstep : errorsAfter errs a = if (verdict a).1 = true then [] else [(verdict a).2] := by
      simp only [errorsAfter, ht, List.nil_append]
    cases rest with
    | nil =>
      simp only [List.getLast?_singleton, Option.some.injEq] at hl
      subst hl
      simpa using hstep
    | cons b rest2 =>
      have hl2 : (b :: rest2).getLast? = some f := by
        simpa [List.getLast?_cons_cons] using hl
      rw [List.foldl_cons]
      apply ih _ f _ hl2
      rw [hstep]
      split <;> simp

theorem Dom.parentsIn_fields_ne_nil (d : Dom) : ∀ p ∈ Dom.parentsIn d, p.fields ≠ [] := by
  induction d with
  | nil => intro p hp; simp [Dom.parentsIn] at hp
  | field f next ih => intro p hp; exact ih p (by simpa [Dom.parentsIn] using hp)
  | error t next ih => intro p hp; exact ih p (by simpa [Dom.parentsIn] using hp)
  | elem kids next ihk ih =>
    intro p hp
    simp only [Dom.parentsIn, List.mem_append] at hp
    rcases hp with hp | hp
    · by_cases hk : Dom.hasDirect kids = true
      · simp only [hk, if_true, List.mem_singleton] at hp
        subst hp
        simpa [Dom.hasDirect] using hk
      · simp only [hk, Bool.false_eq_true, if_false] at hp
        exact ihk p hp
    · exact ih p hp

theorem Dom.parents_fields_ne_nil (form : Dom) : ∀ p ∈ Dom.parents form, p.fields ≠ [] := by
  intro p hp
  by_cases hd : Dom.hasDirect form = true
  · simp only [Dom.parents, hd, if_true, List.mem_singleton] at hp
    subst hp
    simpa [Dom.hasDirect] using hd
  · simp only [Dom.parents, hd, Bool.false_eq_true, if_false] at hp
    exact Dom.parentsIn_fields_ne_nil form p hp

/-- C5 (amended): for every form in which no parent element of an input holds
the parent element of another input (inputs may share a parent, and parents may
lie at any depth) and in which each such parent holds at most one element of
class `error-message` beforehand, `validateForm` returns `true` exactly when
every input is valid, and afterwards every parent has each of its inputs
marked with the class `error` exactly when it is invalid and shows no error
element when the last of its inputs is valid and exactly one, carrying that
input's message, when the last of its inputs is invalid. On such a form the
tree and the list of parent elements give the same result and the same
display. -/
theorem validateForm_display (form : Dom) (hnest : form.apart = true)
    (hone : ∀ p ∈ form.parents, p.errors.length ≤ 1) :
    ((Dom.validateForm form).1 = true ↔ ∀ f ∈ form.fields, (verdict f).1 = true) ∧
    (∀ (g : Nat) (p : Parent), form.parents[g]? = some p →
      ∃ (q : Parent) (f : Field),
        (Dom.validateForm form).2.parents[g]? = some q ∧
        q.fields = p.fields.map (fun x => { x with errorClass := !(verdict x).1 }) ∧
        p.fields.getLast? = some f ∧
        q.errors = if (verdict f).1 = true then [] else [(verdict f).2]) ∧
    (Dom.validateForm form).1 = (validateForm form.parents).1 ∧
    (Dom.validateForm form).2.parents = (validateForm form.parents).2 := by
  have heq := Dom.validateForm_eq_upTo form hnest
  have hpar := Dom.parents_upTo form hnest
  refine ⟨?_, ?_, ?_, ?_⟩
  · rw [heq]
    simp
  · intro g p hg
    have hp := List.getElem?_mem hg
    have hne := Dom.parents_fields_ne_nil form p hp
    obtain ⟨f, hf⟩ : ∃ f, p.fields.getLast? = some f := by
      cases hl : p.fields.getLast? with
      | none => exact absurd (List.getLast?_eq_none_iff.mp hl) hne
      | some f => exact ⟨f, rfl⟩
    refine ⟨validatedParent p, f, ?_, rfl, hf, ?_⟩
    · rw [heq, hpar]
      simp [hg]
    · exact foldl_errorsAfter_last p.fields p.errors f (hone p hp) hf
  · rw [heq, validateForm_eq, Dom.fields_parents form hnest]
    simp only [List.all_flatten]
    generalize Dom.parents form = ps
    induction ps with
    | nil => rfl
    | cons p ps ih => simp only [List.map_cons, List.all_cons, ih]
  · rw [heq, hpar, validateForm_eq]

/-- Witness of C5: a valid and then an invalid input in one parent element, and
a valid input alone in a second parent that shows a stale error element: the
first parent ends with the one message of its invalid input, the second with
none. -/
theorem validateForm_display_witness :
    (Dom.elem (.field ⟨"Ana", "text", true, "", false⟩ (.field ⟨"", "email", true, "", false⟩ .nil))
      (.elem (.field ⟨"0917 555", "tel", false, "", true⟩ (.error "stale" .nil)) .nil)).apart = true ∧
    (∀ p ∈ (Dom.elem
        (.field ⟨"Ana", "text", true, "", false⟩ (.field ⟨"", "email", true, "", false⟩ .nil))
        (.elem (.field ⟨"0917 555", "tel", false, "", true⟩ (.error "stale" .nil)) .nil)).parents,
      p.errors.length ≤ 1) ∧
    (Dom.validateForm (.elem
        (.field ⟨"Ana", "text", true, "", false⟩ (.field ⟨"", "email", true, "", false⟩ .nil))
        (.elem (.field ⟨"0917 555", "tel", false, "", true⟩ (.error "stale" .nil)) .nil))).2.parents =
      [⟨[⟨"Ana", "text", true, "", false⟩, ⟨"", "email", true, "", true⟩],
          ["This field is required"]⟩,
        ⟨[⟨"0917 555", "tel", false, "", false⟩], []⟩] :=
  ⟨by decide, by decide,
    ((validateForm_display
      (.elem (.field ⟨"Ana", "text", true, "", false⟩ (.field ⟨"", "email", true, "", false⟩ .nil))
        (.elem (.field ⟨"0917 555", "tel", false, "", true⟩ (.error "stale" .nil)) .nil))
      (by decide) (by decide)).2.2.2).trans (by decide)⟩

/-- Counterexample to C5 as stated. An invalid and then a valid input in the
same parent element: `validateForm` returns `false` and no error element is
left, because `clearError` on the valid input removes the error of the invalid
one. An invalid input in a wrapper and a valid input next to the wrapper,
directly in the form: `clearError` on the valid input searches the whole form
and removes the error shown in the wrapper. An invalid input alone in a parent
that already shows two error elements ends with two. -/
theorem validateForm_display_counterexample :
    Dom.validateForm (.elem
        (.field ⟨"", "text", true, "", false⟩ (.field ⟨"x", "text", true, "", false⟩ .nil)) .nil) =
      (false, .elem
        (.field ⟨"", "text", true, "", true⟩ (.field ⟨"x", "text", true, "", false⟩ .nil)) .nil) ∧
    Dom.validateForm (.elem (.field ⟨" ", "text", true, "", false⟩ .nil)
        (.field ⟨"tok", "hidden", false, "", false⟩ .nil)) =
      (false, .elem (.field ⟨" ", "text", true, "", true⟩ .nil)
        (.field ⟨"tok", "hidden", false, "", false⟩ .nil)) ∧
    Dom.validateForm (.elem
        (.field ⟨"", "text", true, "", false⟩ (.error "x" (.error "y" .nil))) .nil) =
      (false, .elem (.field ⟨"", "text", true, "", true⟩
        (.error "y" (.error "This field is required" .nil))) .nil) := by
  decide

end EnhancedWebsite
